import Mathlib

set_option maxRecDepth 10000

/-!
Verification of the htmx-go swap-strategy builder and response writer.

This file shallowly embeds the Go sources of the `htmx` package
(`swap.go`, `response.go` and the response-header builder file) into
Lean 4 and proves properties about the embedding.

Go strings are modelled as `List Char`; Go's `strings.Split(s, " ")`,
`strings.Join`, `strings.TrimSpace` and `strings.HasPrefix` are modelled
by faithful list functions.  Go's `time.Duration` (an `int64` count of
nanoseconds) is modelled as `Int`, and `time.Duration.String` is
translated from the Go standard library's formatting routine.
-/

namespace HtmxGo

/-- A Go string, modelled as its list of characters. -/
abbrev GoStr := List Char

/-- The set of characters trimmed by Go's `strings.TrimSpace`
(`unicode.IsSpace`): ASCII whitespace plus NEL and NBSP. -/
def isGoSpace (c : Char) : Bool :=
  c == ' ' || c == '\t' || c == '\n' || c == '\x0b' || c == '\x0c' ||
  c == '\r' || c == '\u0085' || c == ' '

/-- Go `strings.TrimSpace`: drop leading and trailing whitespace. -/
def trimSpace (s : GoStr) : GoStr :=
  (((s.dropWhile isGoSpace).reverse).dropWhile isGoSpace).reverse

/-- Go `strings.Split(s, " ")`: split on every single space,
keeping empty fields.  (`strings.Split("", " ") = [""]`, matching
`List.splitOn`.) -/
def splitOnSpace (s : GoStr) : List GoStr := s.splitOn ' '

/-- Go `strings.HasPrefix p s` (argument order: `hasPfx prefixStr s`). -/
def hasPfx : GoStr → GoStr → Bool
  | [], _ => true
  | _ :: _, [] => false
  | a :: as, b :: bs => a == b && hasPfx as bs

/-- The `join` helper of `swap.go`: join with single spaces, then
`TrimSpace` (the trim compensates for leading separator spaces). -/
def join (elems : List GoStr) : GoStr :=
  trimSpace (List.intercalate [' '] elems)

/-! ## swap.go: the SwapStrategy type and its base constants -/

/-- The `SwapStrategy` type: a Go string type. -/
abbrev SwapStrategy := GoStr

/-- The `swapString` method: returns the underlying string. -/
def swapString (s : SwapStrategy) : GoStr := s

def SwapInnerHTML : SwapStrategy := "innerHTML".data
def SwapOuterHTML : SwapStrategy := "outerHTML".data
def SwapBeforeBegin : SwapStrategy := "beforebegin".data
def SwapAfterBegin : SwapStrategy := "afterbegin".data
def SwapBeforeEnd : SwapStrategy := "beforeend".data
def SwapAfterEnd : SwapStrategy := "afterend".data
def SwapDelete : SwapStrategy := "delete".data
def SwapNone : SwapStrategy := "none".data
def SwapDefault : SwapStrategy := "".data

/-- The `cutPrefix` method of `swap.go`: split the strategy into words,
drop every word starting with `pfx ++ ":"`, and re-join.  The Go code
allocates `make([]string, len(words))` — a slice of `len(words)` empty
strings — and then appends the kept words after them, so the model
prepends the same empty strings. -/
def cutPfx (s : SwapStrategy) (pfx : GoStr) : GoStr :=
  let words := splitOnSpace (swapString s)
  let filteredWords :=
    List.replicate words.length ([] : GoStr) ++
      words.filter (fun w => !hasPfx (pfx ++ [':']) w)
  join filteredWords

/-- The `boolModifier` method of `swap.go`. -/
def boolModifier (s : SwapStrategy) (pfx : GoStr) (b : Bool) : SwapStrategy :=
  let v := cutPfx s pfx
  let v := join [v, pfx ++ [':']]
  if b then v ++ "true".data else v ++ "false".data

/-! ## time.Duration.String (Go standard library) -/

/-- A Go `time.Duration`: an `int64` number of nanoseconds. -/
abbrev Duration := Int

/-- One digit character, as Go's `byte(digit) + '0'`. -/
def digitChar (d : Nat) : Char := Char.ofNat (48 + d)

/-- The loop of Go `time.fmtFrac`: peel `prec` decimal digits off `v`
from the least-significant end, printing a digit (to the left) once a
nonzero digit has been seen.  Returns the print flag, the printed
digits and the remaining value. -/
def fmtFracLoop : Nat → Nat → Bool → List Char → Bool × List Char × Nat
  | 0, v, pr, acc => (pr, acc, v)
  | p + 1, v, pr, acc =>
    let digit := v % 10
    let pr' := pr || decide (digit ≠ 0)
    let acc' := if pr' then digitChar digit :: acc else acc
    fmtFracLoop p (v / 10) pr' acc'

/-- Go `time.fmtFrac`: format the fraction of `v` (in units of
`10 ^ prec`), omitting trailing zeros, with a leading `'.'` when any
digit was printed.  Returns the fraction text and `v / 10 ^ prec`. -/
def fmtFrac (v : Nat) (prec : Nat) : List Char × Nat :=
  let r := fmtFracLoop prec v false []
  (if r.1 then '.' :: r.2.1 else r.2.1, r.2.2)

/-- Go `time.fmtInt`: decimal digits of `v` (just `"0"` for zero).
`Nat.toDigits 10` performs exactly the same repeated divmod. -/
def fmtInt (v : Nat) : List Char := Nat.toDigits 10 v

/-- The body of Go `time.Duration.format` on the absolute value `u`.
Sub-second durations pick the largest of `ns`/`µs`/`ms` in which the
value is at least 1; otherwise seconds are printed with up to 9
fractional digits, then minutes and hours. -/
def durationCore (u : Nat) : GoStr :=
  if u < 1000000000 then
    if u = 0 then "0s".data
    else if u < 1000 then
      fmtInt (fmtFrac u 0).2 ++ (fmtFrac u 0).1 ++ "ns".data
    else if u < 1000000 then
      fmtInt (fmtFrac u 3).2 ++ (fmtFrac u 3).1 ++ "µs".data
    else
      fmtInt (fmtFrac u 6).2 ++ (fmtFrac u 6).1 ++ "ms".data
  else
    let fr := fmtFrac u 9
    let secs := fmtInt (fr.2 % 60) ++ fr.1 ++ ['s']
    let v := fr.2 / 60
    (if v > 0 then
        (if v / 60 > 0 then fmtInt (v / 60) ++ ['h'] else []) ++
          fmtInt (v % 60) ++ ['m']
      else []) ++ secs

/-- Go `time.Duration.String`: format the absolute value, with a
leading minus sign for negative durations. -/
def durationString (d : Duration) : GoStr :=
  if d < 0 then '-' :: durationCore d.natAbs else durationCore d.natAbs

/-- The `timeModifier` method of `swap.go`. -/
def timeModifier (s : SwapStrategy) (pfx : GoStr) (duration : Duration) :
    SwapStrategy :=
  let v := cutPfx s pfx
  join [v, pfx ++ [':'] ++ durationString duration]

/-! ## swap.go: the modifier methods -/

/-- Embeds `SwapStrategy.Transition`. -/
def Transition (s : SwapStrategy) (shouldTransition : Bool) : SwapStrategy :=
  boolModifier s "transition".data shouldTransition

/-- Embeds `SwapStrategy.IgnoreTitle`. -/
def IgnoreTitle (s : SwapStrategy) (shouldIgnore : Bool) : SwapStrategy :=
  boolModifier s "ignoreTitle".data shouldIgnore

/-- Embeds `SwapStrategy.FocusScroll`. -/
def FocusScroll (s : SwapStrategy) (shouldFocus : Bool) : SwapStrategy :=
  boolModifier s "focusScroll".data shouldFocus

/-- Embeds `SwapStrategy.After`. -/
def After (s : SwapStrategy) (duration : Duration) : SwapStrategy :=
  timeModifier s "swap".data duration

/-- Embeds `SwapStrategy.SettleAfter`. -/
def SettleAfter (s : SwapStrategy) (duration : Duration) : SwapStrategy :=
  timeModifier s "settle".data duration

/-- The `direction` type of `swap.go`: only `Top` and `Bottom` are
constructible. -/
inductive direction where
  | top
  | bottom
deriving DecidableEq, Repr

/-- Embeds `direction.dirString`. -/
def dirString : direction → GoStr
  | .top => "top".data
  | .bottom => "bottom".data

/-- Embeds `SwapStrategy.Scroll`. -/
def Scroll (s : SwapStrategy) (d : direction) : SwapStrategy :=
  let v := cutPfx s "scroll".data
  let mod := "scroll:".data ++ dirString d
  join [v, mod]

/-- Embeds `SwapStrategy.ScrollOn`. -/
def ScrollOn (s : SwapStrategy) (cssSelector : GoStr) (d : direction) :
    SwapStrategy :=
  let v := cutPfx s "scroll".data
  let mod := "scroll:".data ++ cssSelector ++ [':'] ++ dirString d
  join [v, mod]

/-- Embeds `SwapStrategy.ScrollWindow`. -/
def ScrollWindow (s : SwapStrategy) (d : direction) : SwapStrategy :=
  let v := cutPfx s "scroll".data
  let mod := "scroll:window:".data ++ dirString d
  join [v, mod]

/-- Embeds `SwapStrategy.Show`. -/
def ShowDir (s : SwapStrategy) (d : direction) : SwapStrategy :=
  let v := cutPfx s "show".data
  let mod := "show:".data ++ dirString d
  join [v, mod]

/-- Embeds `SwapStrategy.ShowOn`. -/
def ShowOn (s : SwapStrategy) (cssSelector : GoStr) (d : direction) :
    SwapStrategy :=
  let v := cutPfx s "show".data
  let mod := "show:".data ++ cssSelector ++ [':'] ++ dirString d
  join [v, mod]

/-- Embeds `SwapStrategy.ShowWindow`. -/
def ShowWindow (s : SwapStrategy) (d : direction) : SwapStrategy :=
  let v := cutPfx s "show".data
  let mod := "show:window:".data ++ dirString d
  join [v, mod]

/-- Embeds `SwapStrategy.ShowNone`. -/
def ShowNone (s : SwapStrategy) : SwapStrategy :=
  let v := cutPfx s "show".data
  let mod := "show:none".data
  join [v, mod]

/-! ## Abstract model of modifier chains

A `Mod` is one application of a modifier method with its arguments;
`applyMod` dispatches it to the embedded Go method.  The abstract model
keeps the base token and the ordered list of modifier tokens, with
`setMod` performing the per-key last-write-wins replacement described
by the spec. -/

/-- The seven modifier keys of the swap grammar. -/
def modKeys : List GoStr :=
  ["transition".data, "ignoreTitle".data, "focusScroll".data,
   "swap".data, "settle".data, "scroll".data, "show".data]

/-- One modifier-method application with its arguments. -/
inductive Mod where
  | transition (b : Bool)
  | ignoreTitle (b : Bool)
  | focusScroll (b : Bool)
  | after (d : Duration)
  | settleAfter (d : Duration)
  | scroll (d : direction)
  | scrollOn (sel : GoStr) (d : direction)
  | scrollWindow (d : direction)
  | showDir (d : direction)
  | showOn (sel : GoStr) (d : direction)
  | showWindow (d : direction)
  | showNone

/-- The modifier key a `Mod` writes to. -/
def Mod.key : Mod → GoStr
  | .transition _ => "transition".data
  | .ignoreTitle _ => "ignoreTitle".data
  | .focusScroll _ => "focusScroll".data
  | .after _ => "swap".data
  | .settleAfter _ => "settle".data
  | .scroll _ => "scroll".data
  | .scrollOn _ _ => "scroll".data
  | .scrollWindow _ => "scroll".data
  | .showDir _ => "show".data
  | .showOn _ _ => "show".data
  | .showWindow _ => "show".data
  | .showNone => "show".data

/-- The part of the emitted token after `key:`. -/
def Mod.rest : Mod → GoStr
  | .transition b => if b then "true".data else "false".data
  | .ignoreTitle b => if b then "true".data else "false".data
  | .focusScroll b => if b then "true".data else "false".data
  | .after d => durationString d
  | .settleAfter d => durationString d
  | .scroll d => dirString d
  | .scrollOn sel d => sel ++ ':' :: dirString d
  | .scrollWindow d => "window:".data ++ dirString d
  | .showDir d => dirString d
  | .showOn sel d => sel ++ ':' :: dirString d
  | .showWindow d => "window:".data ++ dirString d
  | .showNone => "none".data

/-- The full `key:value` token a `Mod` emits. -/
def Mod.token (m : Mod) : GoStr := m.key ++ ':' :: m.rest

/-- A `Mod` is `ok` when its CSS selector argument (if any) contains no
space character.  (`cutPrefix` tokenizes on single spaces, so a selector
containing a space splits into several tokens.) -/
def Mod.ok : Mod → Bool
  | .scrollOn sel _ => sel.all (fun c => !(c == ' '))
  | .showOn sel _ => sel.all (fun c => !(c == ' '))
  | _ => true

/-- Dispatch a `Mod` to the corresponding embedded Go method. -/
def applyMod (s : SwapStrategy) : Mod → SwapStrategy
  | .transition b => Transition s b
  | .ignoreTitle b => IgnoreTitle s b
  | .focusScroll b => FocusScroll s b
  | .after d => After s d
  | .settleAfter d => SettleAfter s d
  | .scroll d => Scroll s d
  | .scrollOn sel d => ScrollOn s sel d
  | .scrollWindow d => ScrollWindow s d
  | .showDir d => ShowDir s d
  | .showOn sel d => ShowOn s sel d
  | .showWindow d => ShowWindow s d
  | .showNone => ShowNone s

/-- Apply a whole chain of modifier calls. -/
def applyChain (s : SwapStrategy) (ms : List Mod) : SwapStrategy :=
  ms.foldl applyMod s

/-- The pattern `key:` used for token matching. -/
def keyPfx (k : GoStr) : GoStr := k ++ [':']

/-- Does token `t` belong to key `k` (i.e. start with `k:`)? -/
def matchesKey (k : GoStr) (t : GoStr) : Bool := hasPfx (keyPfx k) t

/-- Abstract last-write-wins update: drop every token of the `Mod`'s
key and append its fresh token at the end. -/
def setMod (mods : List GoStr) (m : Mod) : List GoStr :=
  mods.filter (fun t => !matchesKey m.key t) ++ [m.token]

/-- The abstract modifier-token list of a chain. -/
def absChain (ms : List Mod) : List GoStr := ms.foldl setMod []

/-- Reference serialization: the base token followed by the modifier
tokens, space-joined, the empty base emitting nothing. -/
def render (base : GoStr) (mods : List GoStr) : GoStr :=
  List.intercalate [' '] ((base :: mods).filter (fun t => !t.isEmpty))

/-- Is the first character absent or not whitespace? -/
def headOk (s : GoStr) : Bool :=
  match s with
  | [] => true
  | c :: _ => !isGoSpace c

/-- Is the last character absent or not whitespace? -/
def lastOk (s : GoStr) : Bool := headOk s.reverse

/-- Well-formedness of a modifier token: space-free, owned by one of
the seven keys, and whitespace-free at both ends. -/
def tokWfB (t : GoStr) : Bool :=
  t.all (fun c => !(c == ' ')) && modKeys.any (fun k => matchesKey k t) &&
    headOk t && lastOk t

abbrev TokWf (t : GoStr) : Prop := tokWfB t = true

/-- Well-formedness of a base token: space-free, matching no modifier
key, and whitespace-free at both ends.  All nine base constants (the
empty default included) satisfy this. -/
def baseWfB (b : GoStr) : Bool :=
  b.all (fun c => !(c == ' ')) && modKeys.all (fun k => !matchesKey k b) &&
    headOk b && lastOk b

abbrev BaseWf (b : GoStr) : Prop := baseWfB b = true

/-- The nine base strategy constants. -/
def baseConsts : List SwapStrategy :=
  [SwapInnerHTML, SwapOuterHTML, SwapBeforeBegin, SwapAfterBegin,
   SwapBeforeEnd, SwapAfterEnd, SwapDelete, SwapNone, SwapDefault]

/-- A strategy is reachable when it arises from a base constant by a
chain of modifier calls whose selectors are space-free. -/
def Reachable (s : SwapStrategy) : Prop :=
  ∃ B ms, B ∈ baseConsts ∧ (∀ m ∈ ms, Mod.ok m = true) ∧ s = applyChain B ms

/-! ## Basic lemmas about the Go string primitives -/

theorem hasPfx_iff : ∀ p s : GoStr, hasPfx p s = true ↔ p <+: s
  | [], s => by simp [hasPfx]
  | _ :: _, [] => by simp [hasPfx]
  | a :: as, b :: bs => by
    simp [hasPfx, hasPfx_iff as bs, List.cons_prefix_cons]

theorem hasPfx_append (p r : GoStr) : hasPfx p (p ++ r) = true := by
  rw [hasPfx_iff]
  exact List.prefix_append p r

theorem isGoSpace_space : isGoSpace ' ' = true := rfl

theorem dropWhile_replicate (n : Nat) (x : GoStr) :
    List.dropWhile isGoSpace (List.replicate n ' ' ++ x) =
      List.dropWhile isGoSpace x := by
  induction n with
  | zero => simp
  | succ n ih => simp [List.replicate_succ, List.dropWhile_cons, isGoSpace, ih]

theorem dropWhile_eq_self_of_headOk (x : GoStr) (h : headOk x = true) :
    List.dropWhile isGoSpace x = x := by
  cases x with
  | nil => rfl
  | cons c t =>
    simp only [headOk, Bool.not_eq_true'] at h
    simp [List.dropWhile_cons, h]

theorem trimSpace_eq_self (x : GoStr) (h1 : headOk x = true)
    (h2 : lastOk x = true) : trimSpace x = x := by
  unfold trimSpace
  unfold lastOk at h2
  rw [dropWhile_eq_self_of_headOk x h1, dropWhile_eq_self_of_headOk _ h2,
    List.reverse_reverse]

theorem trimSpace_replicate_append (n : Nat) (x : GoStr) :
    trimSpace (List.replicate n ' ' ++ x) = trimSpace x := by
  unfold trimSpace
  rw [dropWhile_replicate]

theorem trimSpace_replicate (n : Nat) :
    trimSpace (List.replicate n ' ') = [] := by
  have h := trimSpace_replicate_append n []
  simpa using h

/-! ## Lemmas about `List.intercalate [' ']` -/

theorem ic_nil : List.intercalate [' '] ([] : List GoStr) = [] := by
  simp [List.intercalate]

theorem ic_single (a : GoStr) : List.intercalate [' '] [a] = a := by
  simp [List.intercalate]

theorem ic_cons2 (a b : GoStr) (l : List GoStr) :
    List.intercalate [' '] (a :: b :: l) =
      a ++ ' ' :: List.intercalate [' '] (b :: l) := by
  simp [List.intercalate]

theorem ic_append_single (l : List GoStr) (t : GoStr) (h : l ≠ []) :
    List.intercalate [' '] (l ++ [t]) =
      List.intercalate [' '] l ++ ' ' :: t := by
  induction l with
  | nil => contradiction
  | cons a l ih =>
    cases l with
    | nil => simp [ic_cons2, ic_single]
    | cons b l' =>
      rw [show (a :: b :: l') ++ [t] = a :: b :: (l' ++ [t]) from rfl]
      rw [ic_cons2, show (b : GoStr) :: (l' ++ [t]) = (b :: l') ++ [t] from rfl]
      rw [ih (by simp), ic_cons2, List.append_assoc]
      rfl

theorem ic_replicate_nil_append (n : Nat) (l : List GoStr) (h : l ≠ []) :
    List.intercalate [' '] (List.replicate n ([] : GoStr) ++ l) =
      List.replicate n ' ' ++ List.intercalate [' '] l := by
  induction n with
  | zero => simp
  | succ n ih =>
    have hne : List.replicate n ([] : GoStr) ++ l ≠ [] := by simp [h]
    obtain ⟨b, L, hbl⟩ := List.exists_cons_of_ne_nil hne
    rw [List.replicate_succ, List.cons_append, hbl, ic_cons2, ← hbl, ih]
    simp [List.replicate_succ]

theorem ic_replicate_nil (n : Nat) :
    List.intercalate [' '] (List.replicate (n + 1) ([] : GoStr)) =
      List.replicate n ' ' := by
  rw [List.replicate_succ', ic_replicate_nil_append n [[]] (by simp),
    ic_single]
  simp

theorem headOk_append (a b : GoStr) (ha : a ≠ []) :
    headOk (a ++ b) = headOk a := by
  cases a with
  | nil => contradiction
  | cons c t => rfl

theorem lastOk_append (a b : GoStr) (hb : b ≠ []) :
    lastOk (a ++ b) = lastOk b := by
  unfold lastOk
  rw [List.reverse_append]
  exact headOk_append _ _ (fun hrev => hb (List.reverse_eq_nil_iff.mp hrev))

theorem headOk_ic (ts : List GoStr)
    (h : ∀ t ∈ ts, t ≠ [] ∧ headOk t = true) :
    headOk (List.intercalate [' '] ts) = true := by
  cases ts with
  | nil => rw [ic_nil]; rfl
  | cons t rest =>
    have ht := h t (by simp)
    cases rest with
    | nil => rw [ic_single]; exact ht.2
    | cons b l => rw [ic_cons2, headOk_append _ _ ht.1]; exact ht.2

theorem lastOk_ic (ts : List GoStr)
    (h : ∀ t ∈ ts, t ≠ [] ∧ lastOk t = true) :
    lastOk (List.intercalate [' '] ts) = true := by
  rcases List.eq_nil_or_concat ts with rfl | ⟨L, t, rfl⟩
  · rw [ic_nil]; rfl
  · rw [List.concat_eq_append] at h ⊢
    have ht := h t (by simp)
    cases L with
    | nil => simpa [ic_single] using ht.2
    | cons a l' =>
      rw [ic_append_single _ _ (by simp)]
      rw [show (' ' :: t) = [' '] ++ t from rfl, ← List.append_assoc]
      rw [lastOk_append _ _ ht.1]
      exact ht.2

/-! ## Well-formedness facts -/

theorem tokWf_parts (t : GoStr) (h : TokWf t) :
    (∀ c ∈ t, ¬c = ' ') ∧ (∃ k ∈ modKeys, ∃ r, t = k ++ ':' :: r) ∧
      headOk t = true ∧ lastOk t = true := by
  unfold TokWf tokWfB at h
  simp only [Bool.and_eq_true, List.all_eq_true, List.any_eq_true] at h
  obtain ⟨⟨⟨hsp, hkey⟩, hh⟩, hl⟩ := h
  refine ⟨fun c hc => by simpa using hsp c hc, ?_, hh, hl⟩
  obtain ⟨k, hk, hm⟩ := hkey
  rw [matchesKey, hasPfx_iff] at hm
  obtain ⟨r, hr⟩ := hm
  exact ⟨k, hk, r, by rw [← hr]; simp [keyPfx]⟩

theorem modKeys_ne_nil_mem (k : GoStr) (hk : k ∈ modKeys) : k ≠ [] := by
  fin_cases hk <;> simp

theorem tokWf_ne_nil (t : GoStr) (h : TokWf t) : t ≠ [] := by
  obtain ⟨-, ⟨k, -, r, rfl⟩, -, -⟩ := tokWf_parts t h
  simp

theorem tokWf_no_space (t : GoStr) (h : TokWf t) : ' ' ∉ t := by
  intro hc
  exact (tokWf_parts t h).1 ' ' hc rfl

theorem baseWf_parts (b : GoStr) (h : BaseWf b) :
    (∀ c ∈ b, ¬c = ' ') ∧ (∀ k ∈ modKeys, matchesKey k b = false) ∧
      headOk b = true ∧ lastOk b = true := by
  unfold BaseWf baseWfB at h
  simp only [Bool.and_eq_true, List.all_eq_true] at h
  obtain ⟨⟨⟨hsp, hkey⟩, hh⟩, hl⟩ := h
  refine ⟨fun c hc => by simpa using hsp c hc, fun k hk => ?_, hh, hl⟩
  have := hkey k hk
  simpa using this

theorem baseWf_no_space (b : GoStr) (h : BaseWf b) : ' ' ∉ b := by
  intro hc
  exact (baseWf_parts b h).1 ' ' hc rfl

theorem baseConsts_wf : ∀ b ∈ baseConsts, BaseWf b := by decide

/-! ## Splitting a rendered strategy -/

theorem splitOnSpace_ic (ts : List GoStr) (h : ts ≠ [])
    (hsp : ∀ t ∈ ts, ' ' ∉ t) :
    splitOnSpace (List.intercalate [' '] ts) = ts := by
  unfold splitOnSpace
  exact List.splitOn_intercalate ts ' ' hsp h

theorem splitOnSpace_nil : splitOnSpace [] = [[]] := rfl

theorem hasPfx_nil (p : GoStr) (h : p ≠ []) : hasPfx p [] = false := by
  cases p with
  | nil => contradiction
  | cons a as => rfl

theorem matchesKey_nil (K : GoStr) : matchesKey K [] = false := by
  unfold matchesKey
  exact hasPfx_nil _ (by simp [keyPfx])

/-- The nonempty tokens of `B :: mods` when all of `mods` is wf. -/
theorem tokens_filter (B : GoStr) (mods : List GoStr)
    (hm : ∀ t ∈ mods, TokWf t) :
    (B :: mods).filter (fun t => !t.isEmpty) =
      if B.isEmpty then mods else B :: mods := by
  have hmods : mods.filter (fun t => !t.isEmpty) = mods :=
    List.filter_eq_self.mpr fun t ht => by
      simp [List.isEmpty_iff, tokWf_ne_nil t (hm t ht)]
  rw [List.filter_cons]
  cases hB : B.isEmpty with
  | true => simp [hmods]
  | false => simp [hmods]

theorem render_nil_right (B : GoStr) : render B [] = B := by
  unfold render
  cases hB : B.isEmpty with
  | true =>
    rw [List.isEmpty_iff] at hB
    subst hB
    simp [ic_nil]
  | false =>
    have : B ≠ [] := by simpa [List.isEmpty_iff] using hB
    simp [List.filter_cons, hB, ic_single]

theorem headOk_render (B : GoStr) (mods : List GoStr) (hB : BaseWf B)
    (hm : ∀ t ∈ mods, TokWf t) : headOk (render B mods) = true := by
  unfold render
  apply headOk_ic
  intro t ht
  have := List.mem_filter.mp ht
  rcases List.mem_cons.mp this.1 with rfl | hmem
  · exact ⟨by simpa [List.isEmpty_iff] using this.2, (baseWf_parts t hB).2.2.1⟩
  · exact ⟨tokWf_ne_nil t (hm t hmem), (tokWf_parts t (hm t hmem)).2.2.1⟩

theorem lastOk_render (B : GoStr) (mods : List GoStr) (hB : BaseWf B)
    (hm : ∀ t ∈ mods, TokWf t) : lastOk (render B mods) = true := by
  unfold render
  apply lastOk_ic
  intro t ht
  have := List.mem_filter.mp ht
  rcases List.mem_cons.mp this.1 with rfl | hmem
  · exact ⟨by simpa [List.isEmpty_iff] using this.2, (baseWf_parts t hB).2.2.2⟩
  · exact ⟨tokWf_ne_nil t (hm t hmem), (tokWf_parts t (hm t hmem)).2.2.2⟩

/-- Splitting a rendered strategy recovers its nonempty tokens (with the
degenerate all-empty case yielding the single empty word, as Go's
`strings.Split` does on the empty string). -/
theorem splitOnSpace_render (B : GoStr) (mods : List GoStr) (hB : BaseWf B)
    (hm : ∀ t ∈ mods, TokWf t) :
    splitOnSpace (render B mods) =
      if (B :: mods).filter (fun t => !t.isEmpty) = [] then [[]]
      else (B :: mods).filter (fun t => !t.isEmpty) := by
  by_cases h0 : (B :: mods).filter (fun t => !t.isEmpty) = []
  · rw [if_pos h0]
    unfold render
    rw [h0, ic_nil]
    rfl
  · rw [if_neg h0]
    unfold render
    apply splitOnSpace_ic _ h0
    intro t ht
    have := List.mem_filter.mp ht
    rcases List.mem_cons.mp this.1 with rfl | hmem
    · exact baseWf_no_space t hB
    · exact tokWf_no_space t (hm t hmem)

theorem matchesKey_def (K t : GoStr) :
    matchesKey K t = hasPfx (K ++ [':']) t := rfl

theorem cutPfx_eq (s pfx : GoStr) :
    cutPfx s pfx =
      join (List.replicate (splitOnSpace (swapString s)).length ([] : GoStr) ++
        (splitOnSpace (swapString s)).filter
          (fun w => !hasPfx (pfx ++ [':']) w)) := rfl

/-- The heart of the replacement rule: `cutPrefix` on a rendered
strategy filters exactly the tokens of the given key out of the
modifier list. -/
theorem cutPfx_render (B : GoStr) (mods : List GoStr) (K : GoStr)
    (hB : BaseWf B) (hm : ∀ t ∈ mods, TokWf t) (hK : K ∈ modKeys) :
    cutPfx (render B mods) K =
      render B (mods.filter (fun t => !matchesKey K t)) := by
  have hm' : ∀ t ∈ mods.filter (fun t => !matchesKey K t), TokWf t :=
    fun t ht => hm t (List.mem_filter.mp ht).1
  rw [cutPfx_eq]
  rw [show swapString (render B mods) = render B mods from rfl]
  rw [splitOnSpace_render B mods hB hm]
  by_cases h0 : (B :: mods).filter (fun t => !t.isEmpty) = []
  · rw [if_pos h0]
    have hall := List.filter_eq_nil_iff.mp h0
    have hB0 : B = [] := by
      have := hall B (by simp)
      simpa [List.isEmpty_iff] using this
    have hm0 : mods = [] := by
      rcases mods with _ | ⟨t, ts⟩
      · rfl
      · exfalso
        have := hall t (by simp)
        exact tokWf_ne_nil t (hm t (by simp))
          (by simpa [List.isEmpty_iff] using this)
    subst hB0
    subst hm0
    fin_cases hK <;> decide
  · rw [if_neg h0]
    have hqB : (!matchesKey K B) = true := by
      rw [(baseWf_parts B hB).2.1 K hK]
      rfl
    have hqB' : (!hasPfx (K ++ [':']) B) = true := by
      rw [← matchesKey_def]
      exact hqB
    have hkept : ((B :: mods).filter (fun t => !t.isEmpty)).filter
        (fun w => !hasPfx (K ++ [':']) w) =
        (B :: mods.filter (fun t => !matchesKey K t)).filter
          (fun t => !t.isEmpty) := by
      rw [List.filter_filter, List.filter_cons, List.filter_cons,
        List.filter_filter, hqB']
      have hcong : mods.filter (fun t => (!hasPfx (K ++ [':']) t)
          && !t.isEmpty) = mods.filter (fun t => (!t.isEmpty)
          && !matchesKey K t) :=
        List.filter_congr (fun t _ => by
          rw [← matchesKey_def]
          exact Bool.and_comm _ _)
      rw [hcong]
      simp
    rw [hkept]
    by_cases hkn : (B :: mods.filter (fun t => !matchesKey K t)).filter
        (fun t => !t.isEmpty) = []
    · rw [hkn]
      have hlen : ∃ n, ((B :: mods).filter (fun t => !t.isEmpty)).length
          = n + 1 := by
        rcases hl : (B :: mods).filter (fun t => !t.isEmpty) with _ | ⟨a, L⟩
        · exact absurd hl h0
        · exact ⟨L.length, by rw [hl]; simp⟩
      obtain ⟨n, hn⟩ := hlen
      rw [hn]
      unfold join
      rw [List.append_nil, ic_replicate_nil, trimSpace_replicate]
      unfold render
      rw [hkn, ic_nil]
    · unfold join
      rw [ic_replicate_nil_append _ _ hkn, trimSpace_replicate_append]
      have hic : List.intercalate [' ']
          ((B :: mods.filter (fun t => !matchesKey K t)).filter
            (fun t => !t.isEmpty)) =
          render B (mods.filter (fun t => !matchesKey K t)) := rfl
      rw [hic, trimSpace_eq_self _ (headOk_render _ _ hB hm')
        (lastOk_render _ _ hB hm')]

/-- Joining a rendered prefix and one wf token. -/
theorem join_pair (x m : GoStr) (hx : headOk x = true) (hm1 : m ≠ [])
    (hm2 : headOk m = true) (hm3 : lastOk m = true) :
    join [x, m] = if x.isEmpty then m else x ++ ' ' :: m := by
  unfold join
  rw [ic_cons2, ic_single]
  cases x with
  | nil =>
    simp only [List.isEmpty_nil, if_true, List.nil_append]
    rw [show (' ' :: m) = List.replicate 1 ' ' ++ m from rfl,
      trimSpace_replicate_append]
    exact trimSpace_eq_self m hm2 hm3
  | cons a t =>
    simp only [List.isEmpty_cons, if_false]
    apply trimSpace_eq_self
    · rw [headOk_append _ _ (by simp)]
      exact hx
    · rw [lastOk_append _ _ (by simp),
        show (' ' :: m) = [' '] ++ m from rfl, lastOk_append _ _ hm1]
      exact hm3

/-- Appending one nonempty token to the reference rendering. -/
theorem render_snoc (B : GoStr) (mods : List GoStr) (t : GoStr)
    (hm : ∀ u ∈ mods, TokWf u) (ht : t ≠ []) :
    render B (mods ++ [t]) =
      if (render B mods).isEmpty then t else render B mods ++ ' ' :: t := by
  unfold render
  have hfil : (B :: (mods ++ [t])).filter (fun u => !u.isEmpty) =
      ((B :: mods).filter (fun u => !u.isEmpty)) ++ [t] := by
    rw [show B :: (mods ++ [t]) = (B :: mods) ++ [t] from rfl,
      List.filter_append]
    simp [ht]
  rw [hfil]
  rcases h0 : (B :: mods).filter (fun u => !u.isEmpty) with _ | ⟨a, L⟩
  · rw [h0]
    simp [ic_single, ic_nil]
  · rw [h0, ic_append_single _ _ (by simp)]
    have ha : a ≠ [] := by
      have := (List.mem_filter.mp (h0 ▸ List.mem_cons_self a L)).2
      simpa [List.isEmpty_iff] using this
    have hne : (List.intercalate [' '] (a :: L)).isEmpty = false := by
      rcases L with _ | ⟨b, L'⟩
      · rw [ic_single]
        simpa [List.isEmpty_iff] using ha
      · rw [ic_cons2]
        rcases a with _ | ⟨c, cs⟩
        · exact absurd rfl ha
        · rfl
    rw [hne]
    simp

/-! ## Character-level facts about duration formatting -/

theorem digitChar_not_space : ∀ k, k < 10 → isGoSpace (digitChar k) = false := by
  decide

theorem natDigitChar_not_space :
    ∀ k, k < 10 → isGoSpace (Nat.digitChar k) = false := by
  decide

theorem toDigitsCore_not_space :
    ∀ (fuel n : Nat) (acc : List Char),
      (∀ c ∈ acc, isGoSpace c = false) →
      ∀ c ∈ Nat.toDigitsCore 10 fuel n acc, isGoSpace c = false := by
  intro fuel
  induction fuel with
  | zero =>
    intro n acc hacc c hc
    exact hacc c (by simpa [Nat.toDigitsCore] using hc)
  | succ fuel ih =>
    intro n acc hacc c hc
    simp only [Nat.toDigitsCore] at hc
    have hd : ∀ c' ∈ (Nat.digitChar (n % 10) :: acc), isGoSpace c' = false := by
      intro c' hc'
      rcases List.mem_cons.mp hc' with rfl | h
      · exact natDigitChar_not_space _ (Nat.mod_lt _ (by norm_num))
      · exact hacc c' h
    by_cases h10 : n / 10 = 0
    · rw [if_pos h10] at hc
      exact hd c hc
    · rw [if_neg h10] at hc
      exact ih (n / 10) _ hd c hc

theorem fmtInt_not_space (v : Nat) : ∀ c ∈ fmtInt v, isGoSpace c = false := by
  unfold fmtInt Nat.toDigits
  exact toDigitsCore_not_space _ _ [] (by simp)

theorem toDigitsCore_ne_nil :
    ∀ (fuel n : Nat) (acc : List Char), acc ≠ [] →
      Nat.toDigitsCore 10 fuel n acc ≠ [] := by
  intro fuel
  induction fuel with
  | zero =>
    intro n acc hacc
    simpa [Nat.toDigitsCore] using hacc
  | succ fuel ih =>
    intro n acc hacc
    simp only [Nat.toDigitsCore]
    by_cases h10 : n / 10 = 0
    · rw [if_pos h10]
      simp
    · rw [if_neg h10]
      exact ih (n / 10) _ (by simp)

theorem fmtInt_ne_nil (v : Nat) : fmtInt v ≠ [] := by
  unfold fmtInt Nat.toDigits
  simp only [Nat.toDigitsCore]
  by_cases h10 : v / 10 = 0
  · rw [if_pos h10]
    simp
  · rw [if_neg h10]
    exact toDigitsCore_ne_nil _ _ _ (by simp)

theorem fmtFracLoop_not_space :
    ∀ (p v : Nat) (pr : Bool) (acc : List Char),
      (∀ c ∈ acc, isGoSpace c = false) →
      ∀ c ∈ (fmtFracLoop p v pr acc).2.1, isGoSpace c = false := by
  intro p
  induction p with
  | zero =>
    intro v pr acc hacc c hc
    exact hacc c (by simpa [fmtFracLoop] using hc)
  | succ p ih =>
    intro v pr acc hacc c hc
    simp only [fmtFracLoop] at hc
    have hcons : ∀ (b : Bool), ∀ c' ∈ (if b then digitChar (v % 10) :: acc
        else acc), isGoSpace c' = false := by
      intro b c' hc'
      cases b with
      | false => exact hacc c' (by simpa using hc')
      | true =>
        rcases List.mem_cons.mp (by simpa using hc') with rfl | h
        · exact digitChar_not_space _ (Nat.mod_lt _ (by norm_num))
        · exact hacc c' h
    exact ih (v / 10) _ _ (hcons _) c hc

theorem fmtFrac_not_space (v prec : Nat) :
    ∀ c ∈ (fmtFrac v prec).1, isGoSpace c = false := by
  intro c hc
  have hds : ∀ c' ∈ (fmtFracLoop prec v false []).2.1, isGoSpace c' = false :=
    fmtFracLoop_not_space prec v false [] (by simp)
  simp only [fmtFrac] at hc
  rcases hb : (fmtFracLoop prec v false []).1 with _ | _
  · rw [hb] at hc
    exact hds c (by simpa using hc)
  · rw [hb] at hc
    rcases List.mem_cons.mp (by simpa using hc) with rfl | h
    · decide
    · exact hds c h

/-- If no character of a string is Go whitespace, both ends are clean. -/
theorem headOk_of_all (s : GoStr) (h : ∀ c ∈ s, isGoSpace c = false) :
    headOk s = true := by
  cases s with
  | nil => rfl
  | cons c t =>
    show (!isGoSpace c) = true
    rw [h c (by simp)]
    rfl

theorem lastOk_of_all (s : GoStr) (h : ∀ c ∈ s, isGoSpace c = false) :
    lastOk s = true := by
  unfold lastOk
  exact headOk_of_all _ (fun c hc => h c (List.mem_reverse.mp hc))

theorem durationCore_not_space (u : Nat) :
    ∀ c ∈ durationCore u, isGoSpace c = false := by
  intro c hc
  have hparts : ∀ (prec : Nat) (unit : GoStr),
      (∀ c' ∈ unit, isGoSpace c' = false) →
      c ∈ fmtInt (fmtFrac u prec).2 ++ (fmtFrac u prec).1 ++ unit →
      isGoSpace c = false := by
    intro prec unit hu hmem
    rcases List.mem_append.mp hmem with h | h
    · rcases List.mem_append.mp h with h' | h'
      · exact fmtInt_not_space _ c h'
      · exact fmtFrac_not_space _ _ c h'
    · exact hu c h
  unfold durationCore at hc
  by_cases h1 : u < 1000000000
  · rw [if_pos h1] at hc
    by_cases h0 : u = 0
    · rw [if_pos h0] at hc
      rw [show "0s".data = ['0', 's'] from rfl] at hc
      rcases (by simpa using hc : c = '0' ∨ c = 's') with rfl | rfl <;> decide
    · rw [if_neg h0] at hc
      by_cases h2 : u < 1000
      · rw [if_pos h2] at hc
        refine hparts 0 _ ?_ hc
        intro c' hc'
        rw [show "ns".data = ['n', 's'] from rfl] at hc'
        rcases (by simpa using hc' : c' = 'n' ∨ c' = 's') with rfl | rfl <;>
          decide
      · rw [if_neg h2] at hc
        by_cases h3 : u < 1000000
        · rw [if_pos h3] at hc
          refine hparts 3 _ ?_ hc
          intro c' hc'
          rw [show "µs".data = ['µ', 's'] from rfl] at hc'
          rcases (by simpa using hc' : c' = 'µ' ∨ c' = 's') with rfl | rfl <;>
            decide
        · rw [if_neg h3] at hc
          refine hparts 6 _ ?_ hc
          intro c' hc'
          rw [show "ms".data = ['m', 's'] from rfl] at hc'
          rcases (by simpa using hc' : c' = 'm' ∨ c' = 's') with rfl | rfl <;>
            decide
  · rw [if_neg h1] at hc
    rcases List.mem_append.mp hc with h | h
    · by_cases hv : (fmtFrac u 9).2 / 60 > 0
      · rw [if_pos hv] at h
        rcases List.mem_append.mp h with h' | h'
        · rcases List.mem_append.mp h' with h'' | h''
          · by_cases hh : (fmtFrac u 9).2 / 60 / 60 > 0
            · rw [if_pos hh] at h''
              rcases List.mem_append.mp h'' with h3 | h3
              · exact fmtInt_not_space _ c h3
              · rcases List.mem_singleton.mp h3 with rfl
                decide
            · rw [if_neg hh] at h''
              simp at h''
          · exact fmtInt_not_space _ c h''
        · rcases List.mem_singleton.mp h' with rfl
          decide
      · rw [if_neg hv] at h
        simp at h
    · rcases List.mem_append.mp h with h' | h'
      · rcases List.mem_append.mp h' with h'' | h''
        · exact fmtInt_not_space _ c h''
        · exact fmtFrac_not_space _ _ c h''
      · rcases List.mem_singleton.mp h' with rfl
        decide

theorem durationString_not_space (d : Duration) :
    ∀ c ∈ durationString d, isGoSpace c = false := by
  intro c hc
  unfold durationString at hc
  by_cases hneg : d < 0
  · rw [if_pos hneg] at hc
    rcases List.mem_cons.mp hc with rfl | h
    · decide
    · exact durationCore_not_space _ c h
  · rw [if_neg hneg] at hc
    exact durationCore_not_space _ c hc

theorem durationCore_ne_nil (u : Nat) : durationCore u ≠ [] := by
  unfold durationCore
  by_cases h1 : u < 1000000000
  · rw [if_pos h1]
    by_cases h0 : u = 0
    · rw [if_pos h0]
      simp
    · rw [if_neg h0]
      by_cases h2 : u < 1000
      · rw [if_pos h2]
        simp
      · rw [if_neg h2]
        by_cases h3 : u < 1000000
        · rw [if_pos h3]
          simp
        · rw [if_neg h3]
          simp
  · rw [if_neg h1]
    simp

theorem durationString_ne_nil (d : Duration) : durationString d ≠ [] := by
  unfold durationString
  by_cases hneg : d < 0
  · rw [if_pos hneg]
    simp
  · rw [if_neg hneg]
    exact durationCore_ne_nil _

/-! ## Well-formedness of emitted tokens -/

theorem matchesKey_eq (K t : GoStr) :
    matchesKey K t = hasPfx (keyPfx K) t := rfl

theorem mod_key_mem (m : Mod) : m.key ∈ modKeys := by
  cases m <;> simp [Mod.key, modKeys]

theorem mod_token_eq (m : Mod) : m.token = keyPfx m.key ++ m.rest := by
  rw [Mod.token, keyPfx, List.append_assoc]
  rfl

theorem matchesKey_token_self (m : Mod) : matchesKey m.key m.token = true := by
  rw [mod_token_eq, matchesKey_eq]
  exact hasPfx_append _ _

theorem keys_mutual_nonpfx :
    ∀ K1 ∈ modKeys, ∀ K2 ∈ modKeys, K1 ≠ K2 → ¬(keyPfx K1 <+: keyPfx K2) := by
  decide

theorem matchesKey_keyPfx_append (K k : GoStr) (hK : K ∈ modKeys)
    (hk : k ∈ modKeys) (hne : K ≠ k) (r : GoStr) :
    matchesKey K (keyPfx k ++ r) = false := by
  cases hb : matchesKey K (keyPfx k ++ r) with
  | false => rfl
  | true =>
    exfalso
    rw [matchesKey_eq, hasPfx_iff] at hb
    have h2 : keyPfx k <+: keyPfx k ++ r := List.prefix_append _ _
    rcases List.prefix_or_prefix_of_prefix hb h2 with h | h
    · exact keys_mutual_nonpfx K hK k hk hne h
    · exact keys_mutual_nonpfx k hk K hK (Ne.symm hne) h

theorem matchesKey_token_ne (K : GoStr) (hK : K ∈ modKeys) (m : Mod)
    (hne : K ≠ m.key) : matchesKey K m.token = false := by
  rw [mod_token_eq]
  exact matchesKey_keyPfx_append K m.key hK (mod_key_mem m) hne m.rest

theorem dirString_not_space (d : direction) :
    ∀ c ∈ dirString d, isGoSpace c = false := by
  cases d <;> decide

theorem dirString_ne_nil (d : direction) : dirString d ≠ [] := by
  cases d <;> decide

theorem not_space_of_isGoSpace_false (c : Char) (h : isGoSpace c = false) :
    ¬c = ' ' := by
  intro hc
  subst hc
  exact absurd h (by decide)

theorem mod_rest_ne_nil (m : Mod) : m.rest ≠ [] := by
  cases m with
  | transition b => cases b <;> decide
  | ignoreTitle b => cases b <;> decide
  | focusScroll b => cases b <;> decide
  | after d => exact durationString_ne_nil d
  | settleAfter d => exact durationString_ne_nil d
  | scroll d => exact dirString_ne_nil d
  | scrollOn sel d => simp [Mod.rest]
  | scrollWindow d => simp [Mod.rest]
  | showDir d => exact dirString_ne_nil d
  | showOn sel d => simp [Mod.rest]
  | showWindow d => simp [Mod.rest]
  | showNone => decide

theorem mod_rest_no_space (m : Mod) (hok : Mod.ok m = true) :
    ∀ c ∈ m.rest, ¬c = ' ' := by
  cases m with
  | transition b => cases b <;> decide
  | ignoreTitle b => cases b <;> decide
  | focusScroll b => cases b <;> decide
  | after d =>
    exact fun c hc => not_space_of_isGoSpace_false c
      (durationString_not_space d c hc)
  | settleAfter d =>
    exact fun c hc => not_space_of_isGoSpace_false c
      (durationString_not_space d c hc)
  | scroll d =>
    exact fun c hc => not_space_of_isGoSpace_false c
      (dirString_not_space d c hc)
  | scrollOn sel d =>
    intro c hc
    rw [Mod.ok, List.all_eq_true] at hok
    rcases List.mem_append.mp hc with h | h
    · simpa using hok c h
    · rcases List.mem_cons.mp h with rfl | h'
      · decide
      · exact not_space_of_isGoSpace_false c (dirString_not_space d c h')
  | scrollWindow d =>
    intro c hc
    rcases List.mem_append.mp hc with h | h
    · rw [show "window:".data = ['w', 'i', 'n', 'd', 'o', 'w', ':']
        from rfl] at h
      simp only [List.mem_cons, List.not_mem_nil, or_false] at h
      rcases h with rfl | rfl | rfl | rfl | rfl | rfl | rfl <;> decide
    · exact not_space_of_isGoSpace_false c (dirString_not_space d c h)
  | showDir d =>
    exact fun c hc => not_space_of_isGoSpace_false c
      (dirString_not_space d c hc)
  | showOn sel d =>
    intro c hc
    rw [Mod.ok, List.all_eq_true] at hok
    rcases List.mem_append.mp hc with h | h
    · simpa using hok c h
    · rcases List.mem_cons.mp h with rfl | h'
      · decide
      · exact not_space_of_isGoSpace_false c (dirString_not_space d c h')
  | showWindow d =>
    intro c hc
    rcases List.mem_append.mp hc with h | h
    · rw [show "window:".data = ['w', 'i', 'n', 'd', 'o', 'w', ':']
        from rfl] at h
      simp only [List.mem_cons, List.not_mem_nil, or_false] at h
      rcases h with rfl | rfl | rfl | rfl | rfl | rfl | rfl <;> decide
    · exact not_space_of_isGoSpace_false c (dirString_not_space d c h)
  | showNone => decide

theorem mod_rest_lastOk (m : Mod) : lastOk m.rest = true := by
  cases m with
  | transition b => cases b <;> decide
  | ignoreTitle b => cases b <;> decide
  | focusScroll b => cases b <;> decide
  | after d => exact lastOk_of_all _ (durationString_not_space d)
  | settleAfter d => exact lastOk_of_all _ (durationString_not_space d)
  | scroll d => cases d <;> decide
  | scrollOn sel d =>
    rw [Mod.rest, lastOk_append _ _ (by simp)]
    cases d <;> decide
  | scrollWindow d =>
    rw [Mod.rest, lastOk_append _ _ (dirString_ne_nil d)]
    exact lastOk_of_all _ (dirString_not_space d)
  | showDir d => cases d <;> decide
  | showOn sel d =>
    rw [Mod.rest, lastOk_append _ _ (by simp)]
    cases d <;> decide
  | showWindow d =>
    rw [Mod.rest, lastOk_append _ _ (dirString_ne_nil d)]
    exact lastOk_of_all _ (dirString_not_space d)
  | showNone => decide

theorem keyChars_ok : ∀ k ∈ modKeys, ∀ c ∈ keyPfx k, isGoSpace c = false := by
  decide

theorem keyPfx_ne_nil (k : GoStr) : keyPfx k ≠ [] := by
  simp [keyPfx]

/-- Every token a well-selected `Mod` emits is well formed. -/
theorem tokWf_token (m : Mod) (hok : Mod.ok m = true) : TokWf m.token := by
  show tokWfB m.token = true
  unfold tokWfB
  simp only [Bool.and_eq_true]
  refine ⟨⟨⟨?_, ?_⟩, ?_⟩, ?_⟩
  · rw [List.all_eq_true]
    intro c hc
    rw [mod_token_eq] at hc
    rcases List.mem_append.mp hc with h | h
    · have := keyChars_ok m.key (mod_key_mem m) c h
      simpa using not_space_of_isGoSpace_false c this
    · simpa using mod_rest_no_space m hok c h
  · rw [List.any_eq_true]
    exact ⟨m.key, mod_key_mem m, matchesKey_token_self m⟩
  · rw [mod_token_eq, headOk_append _ _ (keyPfx_ne_nil _)]
    exact headOk_of_all _ (keyChars_ok m.key (mod_key_mem m))
  · rw [Mod.token, lastOk_append _ _ (by simp),
      show (':' :: m.rest) = [':'] ++ m.rest from rfl,
      lastOk_append _ _ (mod_rest_ne_nil m)]
    exact mod_rest_lastOk m

/-! ## The chain invariant -/

/-- Invariant on abstract modifier-token lists: all tokens wf, and at
most one token per key. -/
def ModsInv (l : List GoStr) : Prop :=
  (∀ t ∈ l, TokWf t) ∧
    ∀ K ∈ modKeys, l.countP (fun t => matchesKey K t) ≤ 1

theorem modsInv_nil : ModsInv [] := ⟨by simp, by simp⟩

theorem modsInv_setMod (l : List GoStr) (m : Mod) (hInv : ModsInv l)
    (hok : Mod.ok m = true) : ModsInv (setMod l m) := by
  obtain ⟨hwf, hcnt⟩ := hInv
  constructor
  · intro t ht
    rcases List.mem_append.mp ht with h | h
    · exact hwf t (List.mem_filter.mp h).1
    · rcases List.mem_singleton.mp h with rfl
      exact tokWf_token m hok
  · intro K hK
    rw [setMod, List.countP_append]
    by_cases hKm : K = m.key
    · subst hKm
      have h0 : (l.filter (fun t => !matchesKey m.key t)).countP
          (fun t => matchesKey m.key t) = 0 := by
        rw [List.countP_eq_zero]
        intro t ht hmt
        have h2 := (List.mem_filter.mp ht).2
        rw [hmt] at h2
        simp at h2
      rw [h0]
      have h1 : List.countP (fun t => matchesKey m.key t) [m.token] ≤ 1 :=
        le_trans (List.countP_le_length _) (by simp)
      simpa using h1
    · have h1 : List.countP (fun t => matchesKey K t) [m.token] = 0 := by
        rw [List.countP_eq_zero]
        intro t ht
        rcases List.mem_singleton.mp ht with rfl
        rw [matchesKey_token_ne K hK m hKm]
        simp
      rw [h1]
      have h2 : (l.filter (fun t => !matchesKey m.key t)).countP
          (fun t => matchesKey K t) ≤ l.countP (fun t => matchesKey K t) := by
        rw [List.countP_filter]
        exact List.countP_mono_left (fun a _ h => by
          rw [Bool.and_eq_true] at h
          exact h.1)
      simpa using le_trans h2 (hcnt K hK)

/-! ## Normal forms of the modifier methods -/

theorem boolModifier_eq (s : SwapStrategy) (pfx : GoStr) (b : Bool) :
    boolModifier s pfx b = join [cutPfx s pfx, keyPfx pfx] ++
      (if b then "true".data else "false".data) := by
  cases b <;> rfl

theorem After_eq (s : SwapStrategy) (d : Duration) :
    After s d = join [cutPfx s "swap".data,
      keyPfx "swap".data ++ durationString d] := rfl

theorem SettleAfter_eq (s : SwapStrategy) (d : Duration) :
    SettleAfter s d = join [cutPfx s "settle".data,
      keyPfx "settle".data ++ durationString d] := rfl

theorem Scroll_eq (s : SwapStrategy) (d : direction) :
    Scroll s d = join [cutPfx s "scroll".data,
      keyPfx "scroll".data ++ dirString d] := rfl

theorem ScrollOn_eq (s : SwapStrategy) (sel : GoStr) (d : direction) :
    ScrollOn s sel d = join [cutPfx s "scroll".data,
      keyPfx "scroll".data ++ (sel ++ ':' :: dirString d)] := by
  unfold ScrollOn
  rw [show "scroll:".data ++ sel ++ [':'] ++ dirString d =
    keyPfx "scroll".data ++ (sel ++ ':' :: dirString d) from by
      simp [keyPfx]]

theorem ScrollWindow_eq (s : SwapStrategy) (d : direction) :
    ScrollWindow s d = join [cutPfx s "scroll".data,
      keyPfx "scroll".data ++ ("window:".data ++ dirString d)] := rfl

theorem ShowDir_eq (s : SwapStrategy) (d : direction) :
    ShowDir s d = join [cutPfx s "show".data,
      keyPfx "show".data ++ dirString d] := rfl

theorem ShowOn_eq (s : SwapStrategy) (sel : GoStr) (d : direction) :
    ShowOn s sel d = join [cutPfx s "show".data,
      keyPfx "show".data ++ (sel ++ ':' :: dirString d)] := by
  unfold ShowOn
  rw [show "show:".data ++ sel ++ [':'] ++ dirString d =
    keyPfx "show".data ++ (sel ++ ':' :: dirString d) from by
      simp [keyPfx]]

theorem ShowWindow_eq (s : SwapStrategy) (d : direction) :
    ShowWindow s d = join [cutPfx s "show".data,
      keyPfx "show".data ++ ("window:".data ++ dirString d)] := rfl

theorem ShowNone_eq (s : SwapStrategy) :
    ShowNone s = join [cutPfx s "show".data,
      keyPfx "show".data ++ "none".data] := rfl

/-! ## One modifier step refines one abstract step -/

theorem joinTok_render (B : GoStr) (mods' : List GoStr) (tok : GoStr)
    (hB : BaseWf B) (hm' : ∀ t ∈ mods', TokWf t) (htok : TokWf tok) :
    join [render B mods', tok] = render B (mods' ++ [tok]) := by
  obtain ⟨-, -, hh, hl⟩ := tokWf_parts tok htok
  rw [join_pair _ _ (headOk_render _ _ hB hm') (tokWf_ne_nil tok htok) hh hl]
  rw [render_snoc _ _ _ hm' (tokWf_ne_nil tok htok)]

theorem joinTokApp_render (B : GoStr) (mods' : List GoStr) (k suf : GoStr)
    (hB : BaseWf B) (hm' : ∀ t ∈ mods', TokWf t)
    (hk : k ∈ modKeys) (hsuf : suf ≠ []) :
    join [render B mods', keyPfx k] ++ suf =
      render B (mods' ++ [keyPfx k ++ suf]) := by
  have hlk : lastOk (keyPfx k) = true := by
    rw [keyPfx, lastOk_append _ _ (by simp)]
    decide
  have hhk : headOk (keyPfx k) = true :=
    headOk_of_all _ (keyChars_ok k hk)
  rw [join_pair _ _ (headOk_render _ _ hB hm') (keyPfx_ne_nil k) hhk hlk]
  rw [render_snoc _ _ _ hm' (by simp [keyPfx])]
  cases hcond : (render B mods').isEmpty with
  | true => simp
  | false => simp

/-- Applying one modifier method to a rendered strategy performs
exactly the abstract last-write-wins update. -/
theorem applyMod_render (B : GoStr) (mods : List GoStr) (m : Mod)
    (hB : BaseWf B) (hm : ∀ t ∈ mods, TokWf t) (hok : Mod.ok m = true) :
    applyMod (render B mods) m = render B (setMod mods m) := by
  have hm' : ∀ t ∈ mods.filter (fun t => !matchesKey m.key t), TokWf t :=
    fun t ht => hm t (List.mem_filter.mp ht).1
  have hcut := cutPfx_render B mods m.key hB hm (mod_key_mem m)
  have htok' : TokWf (keyPfx m.key ++ m.rest) := by
    rw [← mod_token_eq]
    exact tokWf_token m hok
  have hgen : join [render B (mods.filter (fun t => !matchesKey m.key t)),
      keyPfx m.key ++ m.rest] = render B (setMod mods m) := by
    rw [joinTok_render B _ _ hB hm' htok', setMod, mod_token_eq]
  have hboolgen : ∀ b : Bool,
      join [render B (mods.filter (fun t => !matchesKey m.key t)),
        keyPfx m.key] ++ (if b then "true".data else "false".data) =
      render B (mods.filter (fun t => !matchesKey m.key t) ++
        [keyPfx m.key ++ (if b then "true".data else "false".data)]) :=
    fun b => joinTokApp_render B _ m.key _ hB hm' (mod_key_mem m)
      (by cases b <;> simp)
  cases m with
  | transition b =>
    show Transition (render B mods) b = _
    rw [Transition, boolModifier_eq]
    rw [show "transition".data = Mod.key (.transition b) from rfl, hcut,
      hboolgen b, setMod, mod_token_eq]
    rfl
  | ignoreTitle b =>
    show IgnoreTitle (render B mods) b = _
    rw [IgnoreTitle, boolModifier_eq]
    rw [show "ignoreTitle".data = Mod.key (.ignoreTitle b) from rfl, hcut,
      hboolgen b, setMod, mod_token_eq]
    rfl
  | focusScroll b =>
    show FocusScroll (render B mods) b = _
    rw [FocusScroll, boolModifier_eq]
    rw [show "focusScroll".data = Mod.key (.focusScroll b) from rfl, hcut,
      hboolgen b, setMod, mod_token_eq]
    rfl
  | after d =>
    show After (render B mods) d = _
    rw [After_eq]
    rw [show "swap".data = Mod.key (.after d) from rfl, hcut]
    exact hgen
  | settleAfter d =>
    show SettleAfter (render B mods) d = _
    rw [SettleAfter_eq]
    rw [show "settle".data = Mod.key (.settleAfter d) from rfl, hcut]
    exact hgen
  | scroll d =>
    show Scroll (render B mods) d = _
    rw [Scroll_eq]
    rw [show "scroll".data = Mod.key (.scroll d) from rfl, hcut]
    exact hgen
  | scrollOn sel d =>
    show ScrollOn (render B mods) sel d = _
    rw [ScrollOn_eq]
    rw [show "scroll".data = Mod.key (.scrollOn sel d) from rfl, hcut]
    exact hgen
  | scrollWindow d =>
    show ScrollWindow (render B mods) d = _
    rw [ScrollWindow_eq]
    rw [show "scroll".data = Mod.key (.scrollWindow d) from rfl, hcut]
    exact hgen
  | showDir d =>
    show ShowDir (render B mods) d = _
    rw [ShowDir_eq]
    rw [show "show".data = Mod.key (.showDir d) from rfl, hcut]
    exact hgen
  | showOn sel d =>
    show ShowOn (render B mods) sel d = _
    rw [ShowOn_eq]
    rw [show "show".data = Mod.key (.showOn sel d) from rfl, hcut]
    exact hgen
  | showWindow d =>
    show ShowWindow (render B mods) d = _
    rw [ShowWindow_eq]
    rw [show "show".data = Mod.key (.showWindow d) from rfl, hcut]
    exact hgen
  | showNone =>
    show ShowNone (render B mods) = _
    rw [ShowNone_eq]
    rw [show "show".data = Mod.key .showNone from rfl, hcut]
    exact hgen

/-! ## The chain refinement theorem -/

theorem chain_render_aux (B : GoStr) (hB : BaseWf B) :
    ∀ ms : List Mod, (∀ m ∈ ms, Mod.ok m = true) → ∀ l, ModsInv l →
      applyChain (render B l) ms = render B (ms.foldl setMod l) ∧
        ModsInv (ms.foldl setMod l) := by
  intro ms
  induction ms with
  | nil => exact fun _ l h => ⟨rfl, h⟩
  | cons m ms ih =>
    intro hok l hInv
    have hstep := applyMod_render B l m hB hInv.1 (hok m (by simp))
    have hInv' := modsInv_setMod l m hInv (hok m (by simp))
    have := ih (fun m' hm' => hok m' (by simp [hm'])) (setMod l m) hInv'
    rw [applyChain, List.foldl_cons, List.foldl_cons, hstep]
    exact this

theorem render_nil_eq (B : GoStr) : render B [] = B := render_nil_right B

/-- The main refinement: any chain of modifier calls on a wf base
produces exactly the reference rendering of the abstract state, and the
abstract state satisfies the invariant. -/
theorem applyChain_eq_render (B : GoStr) (hB : BaseWf B) (ms : List Mod)
    (hok : ∀ m ∈ ms, Mod.ok m = true) :
    applyChain B ms = render B (absChain ms) ∧ ModsInv (absChain ms) := by
  have h := chain_render_aux B hB ms hok [] modsInv_nil
  rwa [render_nil_eq] at h

/-! ## Counting tokens per key -/

theorem countP_filter_not (l : List GoStr) (p : GoStr → Bool) :
    (l.filter (fun t => !p t)).countP p = 0 := by
  rw [List.countP_eq_zero]
  intro t ht hpt
  have h2 := (List.mem_filter.mp ht).2
  rw [hpt] at h2
  simp at h2

/-- A key-count bound for any reachable serialized strategy: at most one
token per modifier key. -/
theorem chain_key_count (B : SwapStrategy) (hB : BaseWf B) (ms : List Mod)
    (hok : ∀ m ∈ ms, Mod.ok m = true) (K : GoStr) (hK : K ∈ modKeys) :
    (splitOnSpace (swapString (applyChain B ms))).countP
      (fun t => matchesKey K t) ≤ 1 := by
  obtain ⟨heq, hInv⟩ := applyChain_eq_render B hB ms hok
  rw [show swapString (applyChain B ms) = applyChain B ms from rfl, heq]
  rw [splitOnSpace_render B _ hB hInv.1]
  by_cases h0 : (B :: absChain ms).filter (fun t => !t.isEmpty) = []
  · rw [if_pos h0]
    simp [List.countP_cons, matchesKey_nil]
  · rw [if_neg h0]
    have h1 : ((B :: absChain ms).filter (fun t => !t.isEmpty)).countP
        (fun t => matchesKey K t) ≤
        (B :: absChain ms).countP (fun t => matchesKey K t) := by
      rw [List.countP_filter]
      exact List.countP_mono_left (fun a _ h =>
        ((Bool.and_eq_true _ _).mp h).1)
    have h2 : (B :: absChain ms).countP (fun t => matchesKey K t) ≤ 1 := by
      rw [List.countP_cons, (baseWf_parts B hB).2.1 K hK]
      simpa using hInv.2 K hK
    exact le_trans h1 h2

/-- Re-setting the same key twice keeps only the second write. -/
theorem setMod_setMod_same (l : List GoStr) (m1 m2 : Mod)
    (h : m1.key = m2.key) : setMod (setMod l m1) m2 = setMod l m2 := by
  unfold setMod
  have hfc : List.filter (fun t => !matchesKey m2.key t) [m1.token] = [] := by
    simp [← h, matchesKey_token_self m1]
  rw [List.filter_append, hfc, List.append_nil, List.filter_filter]
  congr 1
  rw [h]
  apply List.filter_congr
  intro t _
  rw [Bool.and_self]

theorem setMod_ne_nil (l : List GoStr) (m : Mod) : setMod l m ≠ [] := by
  simp [setMod]

theorem foldl_setMod_ne_nil (ms : List Mod) :
    ∀ l : List GoStr, l ≠ [] → ms.foldl setMod l ≠ [] := by
  induction ms with
  | nil => exact fun l h => h
  | cons m ms ih => exact fun l _ => ih (setMod l m) (setMod_ne_nil l m)

theorem absChain_ne_nil (ms : List Mod) (h : ms ≠ []) : absChain ms ≠ [] := by
  rcases ms with _ | ⟨m, rest⟩
  · contradiction
  · exact foldl_setMod_ne_nil rest (setMod [] m) (setMod_ne_nil [] m)

theorem absChain_append_one (ms : List Mod) (m : Mod) :
    absChain (ms ++ [m]) = setMod (absChain ms) m := by
  unfold absChain
  rw [List.foldl_append]
  rfl

theorem applyChain_append_one (s : SwapStrategy) (ms : List Mod) (m : Mod) :
    applyChain s (ms ++ [m]) = applyMod (applyChain s ms) m := by
  unfold applyChain
  rw [List.foldl_append]
  rfl

/-- A wf token matches at most one key. -/
theorem tokWf_matches_at_most_one (t : GoStr) (h : TokWf t) (K1 K2 : GoStr)
    (h1 : K1 ∈ modKeys) (h2 : K2 ∈ modKeys) (hm1 : matchesKey K1 t = true)
    (hm2 : matchesKey K2 t = true) : K1 = K2 := by
  obtain ⟨-, ⟨k, hk, r, rfl⟩, -, -⟩ := tokWf_parts t h
  have heq : ∀ K' ∈ modKeys, matchesKey K' (k ++ ':' :: r) = true → K' = k := by
    intro K' hK' hm'
    by_contra hne
    rw [show k ++ ':' :: r = keyPfx k ++ r from by simp [keyPfx],
      matchesKey_keyPfx_append K' k hK' hk hne r] at hm'
    simp at hm'
  rw [heq K1 h1 hm1, heq K2 h2 hm2]

theorem tokWf_not_match_other (t : GoStr) (hwft : TokWf t) (K k : GoStr)
    (hK : K ∈ modKeys) (hk : k ∈ modKeys) (hne : K ≠ k)
    (hmt : matchesKey K t = true) : matchesKey k t = false := by
  cases hmm : matchesKey k t with
  | false => rfl
  | true =>
    exact absurd (tokWf_matches_at_most_one t hwft K k hK hk hmt hmm) hne

theorem setMod_self_count (l : List GoStr) (m : Mod) :
    (setMod l m).countP (fun t => matchesKey m.key t) = 1 := by
  rw [setMod, List.countP_append, countP_filter_not]
  simp [List.countP_cons, matchesKey_token_self m]

theorem setMod_match_eq_token (l : List GoStr) (m : Mod) (t : GoStr)
    (ht : t ∈ setMod l m) (hmt : matchesKey m.key t = true) : t = m.token := by
  rcases List.mem_append.mp ht with h | h
  · have h2 := (List.mem_filter.mp h).2
    rw [hmt] at h2
    simp at h2
  · exact List.mem_singleton.mp h

theorem countP_setMod_other (l : List GoStr) (m : Mod) (K : GoStr)
    (hK : K ∈ modKeys) (hKm : K ≠ m.key) (hwf : ∀ t ∈ l, TokWf t) :
    (setMod l m).countP (fun t => matchesKey K t) =
      l.countP (fun t => matchesKey K t) := by
  rw [setMod, List.countP_append]
  have h1 : List.countP (fun t => matchesKey K t) [m.token] = 0 := by
    simp [List.countP_cons, matchesKey_token_ne K hK m hKm]
  rw [h1, List.countP_filter]
  have hpt : ∀ t ∈ l, ((matchesKey K t) && !matchesKey m.key t) =
      matchesKey K t := by
    intro t ht
    cases hmt : matchesKey K t with
    | false => simp
    | true =>
      rw [tokWf_not_match_other t (hwf t ht) K m.key hK (mod_key_mem m)
        hKm hmt]
      simp
  rw [List.countP_congr (fun t ht => by rw [hpt t ht])]
  simp

theorem mem_setMod_other (l : List GoStr) (m : Mod) (K : GoStr)
    (hK : K ∈ modKeys) (hKm : K ≠ m.key) (hwf : ∀ t ∈ l, TokWf t)
    (t : GoStr) (ht : t ∈ l) (hmt : matchesKey K t = true) :
    t ∈ setMod l m := by
  apply List.mem_append_left
  rw [List.mem_filter]
  refine ⟨ht, ?_⟩
  rw [tokWf_not_match_other t (hwf t ht) K m.key hK (mod_key_mem m) hKm hmt]
  rfl

/-! ## Splitting after exactly one more modifier call -/

theorem filter_tokens_comm (B : GoStr) (l : List GoStr) (K : GoStr)
    (hqB : (!matchesKey K B) = true) :
    ((B :: l).filter (fun t => !t.isEmpty)).filter
      (fun w => !matchesKey K w) =
      (B :: l.filter (fun t => !matchesKey K t)).filter
        (fun t => !t.isEmpty) := by
  rw [List.filter_filter, List.filter_cons, List.filter_cons,
    List.filter_filter, hqB]
  have hcong : l.filter (fun t => (!matchesKey K t) && !t.isEmpty) =
      l.filter (fun t => (!t.isEmpty) && !matchesKey K t) :=
    List.filter_congr (fun t _ => Bool.and_comm _ _)
  rw [hcong]
  simp

/-- Applying one more modifier to a nondegenerate chain removes the old
tokens of its key from the word sequence and appends the new token. -/
theorem split_applyMod_chain (B : GoStr) (hB : BaseWf B) (ms : List Mod)
    (hok : ∀ m' ∈ ms, Mod.ok m' = true) (m : Mod) (hokm : Mod.ok m = true)
    (hne : B ≠ [] ∨ ms ≠ []) :
    splitOnSpace (swapString (applyMod (applyChain B ms) m)) =
      (splitOnSpace (swapString (applyChain B ms))).filter
        (fun t => !matchesKey m.key t) ++ [m.token] := by
  have hok' : ∀ m' ∈ ms ++ [m], Mod.ok m' = true := by
    intro m' hm'
    rcases List.mem_append.mp hm' with h | h
    · exact hok m' h
    · rcases List.mem_singleton.mp h with rfl
      exact hokm
  obtain ⟨heq, hInv⟩ := applyChain_eq_render B hB ms hok
  obtain ⟨heq', hInv'⟩ := applyChain_eq_render B hB (ms ++ [m]) hok'
  rw [show swapString (applyMod (applyChain B ms) m) =
    applyChain B (ms ++ [m]) from (applyChain_append_one B ms m).symm, heq']
  rw [show swapString (applyChain B ms) = applyChain B ms from rfl, heq]
  rw [splitOnSpace_render B _ hB hInv'.1, splitOnSpace_render B _ hB hInv.1]
  have htoks : (B :: absChain ms).filter (fun t => !t.isEmpty) ≠ [] := by
    rcases hne with h | h
    · intro hc
      have := List.filter_eq_nil_iff.mp hc B (by simp)
      exact h (by simpa [List.isEmpty_iff] using this)
    · intro hc
      have habs := absChain_ne_nil ms h
      rcases hl : absChain ms with _ | ⟨t, ts⟩
      · exact habs hl
      · have hmem : t ∈ (B :: absChain ms) := by
          rw [hl]
          simp
        have := List.filter_eq_nil_iff.mp hc t hmem
        have hwf := hInv.1 t (by rw [hl]; simp)
        exact tokWf_ne_nil t hwf (by simpa [List.isEmpty_iff] using this)
  have htoks' : (B :: absChain (ms ++ [m])).filter
      (fun t => !t.isEmpty) ≠ [] := by
    intro hc
    have hmem : m.token ∈ B :: absChain (ms ++ [m]) := by
      rw [absChain_append_one, setMod]
      simp
    have := List.filter_eq_nil_iff.mp hc m.token hmem
    exact tokWf_ne_nil m.token (tokWf_token m hokm)
      (by simpa [List.isEmpty_iff] using this)
  rw [if_neg htoks', if_neg htoks]
  rw [filter_tokens_comm B _ m.key
    (by rw [(baseWf_parts B hB).2.1 m.key (mod_key_mem m)]; rfl)]
  rw [absChain_append_one, setMod]
  rw [show B :: (List.filter (fun t => !matchesKey m.key t) (absChain ms) ++
    [m.token]) = (B :: List.filter (fun t => !matchesKey m.key t)
      (absChain ms)) ++ [m.token] from rfl]
  rw [List.filter_append]
  simp [tokWf_ne_nil m.token (tokWf_token m hokm)]

/-! ## The last word after a time modifier -/

theorem splitOnSpace_append_tok (x tok : GoStr) (htok : ' ' ∉ tok) :
    splitOnSpace (x ++ ' ' :: tok) = splitOnSpace x ++ [tok] := by
  unfold splitOnSpace List.splitOn
  induction x with
  | nil =>
    rw [List.nil_append, List.splitOnP_cons]
    simp only [beq_self_eq_true, if_true]
    rw [List.splitOnP_eq_single _ _ (fun c hc hp => htok (by
      rwa [show c = ' ' from by simpa using hp] at hc))]
    rfl
  | cons a x ih =>
    rw [List.cons_append, List.splitOnP_cons, List.splitOnP_cons]
    by_cases ha : (a == ' ') = true
    · rw [if_pos ha, if_pos ha, ih]
      rfl
    · rw [if_neg ha, if_neg ha, ih]
      rcases hsp : List.splitOnP (fun c => c == ' ') x with _ | ⟨h, t⟩
      · exact absurd hsp (List.splitOnP_ne_nil _ x)
      · rfl

theorem dropWhile_headOk (x : GoStr) :
    headOk (x.dropWhile isGoSpace) = true := by
  induction x with
  | nil => rfl
  | cons c t ih =>
    rw [List.dropWhile_cons]
    cases hc : isGoSpace c with
    | true => simpa using ih
    | false =>
      rw [if_neg (by simp)]
      show (!isGoSpace c) = true
      rw [hc]
      rfl

theorem headOk_of_isPrefix (y z : GoStr) (h : y <+: z)
    (hz : headOk z = true) : headOk y = true := by
  cases y with
  | nil => rfl
  | cons a t =>
    obtain ⟨r, hr⟩ := h
    rw [← hr, headOk_append _ _ (by simp)] at hz
    exact hz

theorem trimSpace_headOk (x : GoStr) : headOk (trimSpace x) = true := by
  unfold trimSpace
  have hzh : headOk (x.dropWhile isGoSpace) = true := dropWhile_headOk x
  apply headOk_of_isPrefix _ (x.dropWhile isGoSpace) _ hzh
  apply List.reverse_suffix.mp
  rw [List.reverse_reverse]
  exact List.dropWhile_suffix _

theorem cutPfx_headOk (s pfx : GoStr) : headOk (cutPfx s pfx) = true := by
  rw [cutPfx_eq]
  unfold join
  exact trimSpace_headOk _

/-- The time modifiers always append their `key:duration` token as the
last space-separated word, for any receiver string whatsoever. -/
theorem timeModifier_getLast (s : SwapStrategy) (pfx : GoStr) (d : Duration)
    (hpfxk : pfx ∈ modKeys) :
    (splitOnSpace (timeModifier s pfx d)).getLast? =
      some (keyPfx pfx ++ durationString d) := by
  have hpfxsp : ' ' ∉ keyPfx pfx := by
    intro hc
    have := keyChars_ok pfx hpfxk ' ' hc
    simp [isGoSpace] at this
  have htsp : ' ' ∉ keyPfx pfx ++ durationString d := by
    intro hc
    rcases List.mem_append.mp hc with h | h
    · exact hpfxsp h
    · have := durationString_not_space d ' ' h
      simp [isGoSpace] at this
  have hv : headOk (cutPfx s pfx) = true := cutPfx_headOk s pfx
  have htokne : keyPfx pfx ++ durationString d ≠ [] := by simp [keyPfx]
  have htokh : headOk (keyPfx pfx ++ durationString d) = true := by
    rw [headOk_append _ _ (keyPfx_ne_nil _)]
    exact headOk_of_all _ (keyChars_ok pfx hpfxk)
  have htokl : lastOk (keyPfx pfx ++ durationString d) = true := by
    rw [lastOk_append _ _ (durationString_ne_nil d)]
    exact lastOk_of_all _ (durationString_not_space d)
  rw [show timeModifier s pfx d =
    join [cutPfx s pfx, keyPfx pfx ++ durationString d] from rfl]
  rw [join_pair _ _ hv htokne htokh htokl]
  cases hve : (cutPfx s pfx).isEmpty with
  | true =>
    simp only [if_true]
    rw [show splitOnSpace (keyPfx pfx ++ durationString d) =
      [keyPfx pfx ++ durationString d] from List.splitOnP_eq_single _ _
        (fun c hc hp => htsp (by
          rwa [show c = ' ' from by simpa using hp] at hc))]
    rfl
  | false =>
    simp only [Bool.false_eq_true, if_false]
    rw [splitOnSpace_append_tok _ _ htsp, List.getLast?_concat]

/-! ## response.go and the response-header builder -/

/-- A Go `error` value as produced by this library: JSON-marshalling
failures, `fmt.Errorf("...: %w", err)` wrapping, and `errors.Join`. -/
inductive GoErr where
  | jsonUnsupported (msg : GoStr)
  | wrapped (msg : GoStr) (cause : GoErr)
  | joined (errs : List GoErr)

/-- An `EventTrigger` (`triggerPlain` / `triggerDetail` /
`triggerObject`).  A `triggerObject`'s arbitrary Go value is modelled
by the outcome of JSON-marshalling it: either its JSON text or the
marshalling error it would produce. -/
inductive EventTrigger where
  | plain (eventName : GoStr)
  | detail (eventName : GoStr) (value : GoStr)
  | object (eventName : GoStr) (objectJson : Except GoErr GoStr)

/-- A value of Go's `map[string]any` as populated by
`triggersToString`: a detail string or an opaque object. -/
inductive GoVal where
  | str (s : GoStr)
  | obj (objectJson : Except GoErr GoStr)

/-- Assignment `m[k] = v` on a Go map, modelled as an association list
with unique keys: replace in place or append. -/
def mapSet {α : Type} : List (GoStr × α) → GoStr → α → List (GoStr × α)
  | [], k, v => [(k, v)]
  | (k', v') :: rest, k, v =>
    if k' = k then (k, v) :: rest else (k', v') :: mapSet rest k v

/-- Go map lookup `m[k]`. -/
def mapGet {α : Type} : List (GoStr × α) → GoStr → Option α
  | [], _ => none
  | (k', v') :: rest, k => if k' = k then some v' else mapGet rest k

/-- The type-switch loop of `triggersToString`: accumulate
`simpleEvents` (in order) and the `detailEvents` map. -/
def collectTriggers : List EventTrigger → List GoStr →
    List (GoStr × GoVal) → List GoStr × List (GoStr × GoVal)
  | [], simple, detail => (simple, detail)
  | .plain n :: rest, simple, detail =>
    collectTriggers rest (simple ++ [n]) detail
  | .detail n v :: rest, simple, detail =>
    collectTriggers rest simple (mapSet detail n (.str v))
  | .object n o :: rest, simple, detail =>
    collectTriggers rest simple (mapSet detail n (.obj o))

/-- The `detailEvents[evt] = ""` loop that folds the plain event names
into the detail map. -/
def addPlains (simple : List GoStr) (detail : List (GoStr × GoVal)) :
    List (GoStr × GoVal) :=
  simple.foldl (fun d n => mapSet d n (.str [])) detail

/-- One character of `encoding/json` string escaping (with Go's
default HTML escaping of `<`, `>`, `&`). -/
def jsonEscapeChar (c : Char) : GoStr :=
  if c = '"' then ['\\', '"']
  else if c = '\\' then ['\\', '\\']
  else if c = '\n' then ['\\', 'n']
  else if c = '\r' then ['\\', 'r']
  else if c = '\t' then ['\\', 't']
  else if c = '<' then "\\u003c".data
  else if c = '>' then "\\u003e".data
  else if c = '&' then "\\u0026".data
  else if c.toNat < 32 then
    "\\u00".data ++ [Nat.digitChar (c.toNat / 16), Nat.digitChar (c.toNat % 16)]
  else if c.toNat = 8232 then "\\u2028".data
  else if c.toNat = 8233 then "\\u2029".data
  else [c]

/-- A JSON string literal. -/
def jsonQuote (s : GoStr) : GoStr :=
  '"' :: (s.map jsonEscapeChar).flatten ++ ['"']

/-- Marshal one map value. -/
def marshalGoVal : GoVal → Except GoErr GoStr
  | .str s => .ok (jsonQuote s)
  | .obj (.ok j) => .ok j
  | .obj (.error e) => .error e

/-- Bytewise (equivalently code-point-wise, UTF-8 being
order-preserving) string order used by `encoding/json` to sort map
keys. -/
def goStrLt : GoStr → GoStr → Bool
  | [], [] => false
  | [], _ :: _ => true
  | _ :: _, [] => false
  | a :: as, b :: bs =>
    if a.toNat < b.toNat then true
    else if b.toNat < a.toNat then false
    else goStrLt as bs

def insortEntry (p : GoStr × GoVal) :
    List (GoStr × GoVal) → List (GoStr × GoVal)
  | [] => [p]
  | q :: rest =>
    if goStrLt p.1 q.1 then p :: q :: rest else q :: insortEntry p rest

/-- Sort the map entries by key. -/
def sortByKey (m : List (GoStr × GoVal)) : List (GoStr × GoVal) :=
  m.foldr insortEntry []

def marshalEntries : List (GoStr × GoVal) → Except GoErr (List GoStr)
  | [] => .ok []
  | (k, v) :: rest =>
    match marshalGoVal v with
    | .error e => .error e
    | .ok j =>
      match marshalEntries rest with
      | .error e => .error e
      | .ok js => .ok ((jsonQuote k ++ ':' :: j) :: js)

/-- Embeds `json.Marshal` of a `map[string]any` whose values are detail
strings or opaque objects: keys sorted bytewise, entries rendered as
`"key":value` joined by commas inside braces, the first unmarshallable
value (in key order) reporting its error. -/
def marshalObj (m : List (GoStr × GoVal)) : Except GoErr GoStr :=
  match marshalEntries (sortByKey m) with
  | .error e => .error e
  | .ok js => .ok ('\x7b' :: List.intercalate [','] js ++ ['\x7d'])

/-- Embeds `triggersToString`: all-plain trigger lists join the names with
`", "`; otherwise the detail map, extended with `""` for every plain
name, is marshalled as a JSON object. -/
def triggersToString (triggers : List EventTrigger) :
    Except GoErr GoStr :=
  let c := collectTriggers triggers [] []
  if c.2.isEmpty then .ok (List.intercalate ", ".data c.1)
  else marshalObj (addPlains c.1 c.2)

def HeaderTrigger : GoStr := "HX-Trigger".data
def HeaderTriggerAfterSettle : GoStr := "HX-Trigger-After-Settle".data
def HeaderTriggerAfterSwap : GoStr := "HX-Trigger-After-Swap".data

/-- The `Response` struct of `response.go`.  The trigger slices are
`Option`s to keep Go's nil/non-nil distinction tested by `Headers`. -/
structure Response where
  headers : List (GoStr × GoStr)
  statusCode : Int
  triggers : Option (List EventTrigger)
  triggersAfterSettle : Option (List EventTrigger)
  triggersAfterSwap : Option (List EventTrigger)
  locationWithContextErr : List GoErr

/-- One `if r.triggers != nil { ... }` block of `Headers`. -/
def addTriggerHeader (m : List (GoStr × GoStr)) (name wrapMsg : GoStr) :
    Option (List EventTrigger) → Except GoErr (List (GoStr × GoStr))
  | none => .ok m
  | some ts =>
    match triggersToString ts with
    | .error e => .error (.wrapped wrapMsg e)
    | .ok s => .ok (mapSet m name s)

/-- Embeds `Response.Headers`. -/
def Headers (r : Response) : Except GoErr (List (GoStr × GoStr)) :=
  match addTriggerHeader r.headers HeaderTrigger
      "marshalling triggers failed".data r.triggers with
  | .error e => .error e
  | .ok m1 =>
    match addTriggerHeader m1 HeaderTriggerAfterSettle
        "marshalling triggers after settle failed".data
        r.triggersAfterSettle with
    | .error e => .error e
    | .ok m2 =>
      match addTriggerHeader m2 HeaderTriggerAfterSwap
          "marshalling triggers after swap failed".data
          r.triggersAfterSwap with
      | .error e => .error e
      | .ok m3 => .ok m3

/-- An `http.ResponseWriter`, reduced to what `Response.Write`
touches: its header map and the `WriteHeader` calls made on it. -/
structure ResponseWriter where
  headerMap : List (GoStr × GoStr)
  wroteStatus : List Int

/-- The header-setting loop of `Response.Write`. -/
def setAll (sink : List (GoStr × GoStr)) (hs : List (GoStr × GoStr)) :
    List (GoStr × GoStr) :=
  hs.foldl (fun s kv => mapSet s kv.1 kv.2) sink

/-- Embeds `Response.Write`: with recorded `LocationWithContext` errors it
returns their `errors.Join` without touching the writer; otherwise it
computes the headers (returning any error without touching the
writer), sets them all, and calls `WriteHeader` exactly when a status
code was set (non-zero). -/
def Write (r : Response) (w : ResponseWriter) :
    Option GoErr × ResponseWriter :=
  if r.locationWithContextErr.isEmpty then
    match Headers r with
    | .error e => (some e, w)
    | .ok hs =>
      (none,
        { headerMap := setAll w.headerMap hs,
          wroteStatus :=
            if r.statusCode ≠ 0 then w.wroteStatus ++ [r.statusCode]
            else w.wroteStatus })
  else (some (.joined r.locationWithContextErr), w)

/-! ## Claim-side descriptions of the trigger header -/

/-- The plain event names of a trigger list, in order. -/
def plainNames : List EventTrigger → List GoStr
  | [] => []
  | .plain n :: rest => n :: plainNames rest
  | .detail _ _ :: rest => plainNames rest
  | .object _ _ :: rest => plainNames rest

/-- One step of scanning for the last detail/object value of `name`. -/
def updFor (name : GoStr) (acc : Option GoVal) : EventTrigger → Option GoVal
  | .plain _ => acc
  | .detail n v => if n = name then some (.str v) else acc
  | .object n o => if n = name then some (.obj o) else acc

/-- The value of the last `TriggerDetail`/`TriggerObject` for `name`. -/
def lastDetailVal (ts : List EventTrigger) (name : GoStr) : Option GoVal :=
  ts.foldl (updFor name) none

/-- The per-name value of the JSON trigger object as the (amended)
claim describes it: a name used by any plain trigger maps to the empty
string, any other name to the value of its last detail/object
trigger. -/
def claimTriggerValue (ts : List EventTrigger) (name : GoStr) :
    Option GoVal :=
  if name ∈ plainNames ts then some (.str []) else lastDetailVal ts name

/-! ## Map and trigger-collection lemmas -/

theorem mapGet_mapSet {α : Type} (m : List (GoStr × α)) (k k' : GoStr)
    (v : α) : mapGet (mapSet m k v) k' =
      if k' = k then some v else mapGet m k' := by
  induction m with
  | nil =>
    simp only [mapSet, mapGet]
    by_cases h : k' = k
    · subst h
      simp
    · rw [if_neg (fun hc => h hc.symm), if_neg h]
  | cons p rest ih =>
    obtain ⟨k0, v0⟩ := p
    simp only [mapSet]
    by_cases h0 : k0 = k
    · subst h0
      rw [if_pos rfl]
      simp only [mapGet]
      by_cases h : k' = k0
      · subst h
        simp
      · rw [if_neg (fun hc => h hc.symm), if_neg h,
          if_neg (fun hc => h hc.symm)]
    · rw [if_neg h0]
      simp only [mapGet]
      by_cases h : k' = k0
      · subst h
        rw [if_pos rfl, if_neg h0, if_pos rfl]
      · rw [if_neg (fun hc : k0 = k' => h hc.symm), ih,
          if_neg (fun hc : k0 = k' => h hc.symm)]

theorem setAll_get_not_mem (hs : List (GoStr × GoStr)) :
    ∀ (sink : List (GoStr × GoStr)) (k : GoStr),
      k ∉ hs.map Prod.fst → mapGet (setAll sink hs) k = mapGet sink k := by
  induction hs with
  | nil => intro sink k _; rfl
  | cons p rest ih =>
    intro sink k hk
    rw [List.map_cons, List.mem_cons] at hk
    push_neg at hk
    rw [setAll, List.foldl_cons]
    have := ih (mapSet sink p.1 p.2) k hk.2
    rw [show List.foldl (fun s kv => mapSet s kv.1 kv.2)
      (mapSet sink p.1 p.2) rest = setAll (mapSet sink p.1 p.2) rest
      from rfl, this, mapGet_mapSet, if_neg hk.1]

/-- With pairwise-distinct keys, setting all headers makes each one
retrievable with its own value. -/
theorem setAll_nodup_get (hs : List (GoStr × GoStr)) :
    ∀ sink : List (GoStr × GoStr), (hs.map Prod.fst).Nodup →
      ∀ kv ∈ hs, mapGet (setAll sink hs) kv.1 = some kv.2 := by
  induction hs with
  | nil => intro _ _ kv hkv; cases hkv
  | cons p rest ih =>
    intro sink hnd kv hkv
    rw [List.map_cons, List.nodup_cons] at hnd
    rw [setAll, List.foldl_cons]
    rcases List.mem_cons.mp hkv with rfl | hmem
    · rw [show List.foldl (fun s kv => mapSet s kv.1 kv.2)
        (mapSet sink kv.1 kv.2) rest = setAll (mapSet sink kv.1 kv.2) rest
        from rfl]
      rw [setAll_get_not_mem rest _ kv.1 hnd.1, mapGet_mapSet, if_pos rfl]
    · exact ih (mapSet sink p.1 p.2) hnd.2 kv hmem

theorem collect_simple (ts : List EventTrigger) :
    ∀ (s : List GoStr) (d : List (GoStr × GoVal)),
      (collectTriggers ts s d).1 = s ++ plainNames ts := by
  induction ts with
  | nil => intro s d; simp [collectTriggers, plainNames]
  | cons t rest ih =>
    intro s d
    cases t with
    | plain n => rw [collectTriggers, ih, plainNames]; rw [List.append_assoc]; rfl
    | detail n v => rw [collectTriggers, ih, plainNames]
    | object n o => rw [collectTriggers, ih, plainNames]

theorem collect_detail_get (ts : List EventTrigger) :
    ∀ (s : List GoStr) (d : List (GoStr × GoVal)) (name : GoStr),
      mapGet (collectTriggers ts s d).2 name =
        ts.foldl (updFor name) (mapGet d name) := by
  induction ts with
  | nil => intro s d name; rfl
  | cons t rest ih =>
    intro s d name
    cases t with
    | plain n => rw [collectTriggers, ih, List.foldl_cons]; rfl
    | detail n v =>
      rw [collectTriggers, ih, List.foldl_cons]
      rw [mapGet_mapSet]
      have : (if name = n then some (GoVal.str v) else mapGet d name) =
          updFor name (mapGet d name) (.detail n v) := by
        rw [updFor]
        by_cases h : name = n
        · rw [if_pos h, if_pos h.symm]
        · rw [if_neg h, if_neg (fun hc => h hc.symm)]
      rw [this]
    | object n o =>
      rw [collectTriggers, ih, List.foldl_cons]
      rw [mapGet_mapSet]
      have : (if name = n then some (GoVal.obj o) else mapGet d name) =
          updFor name (mapGet d name) (.object n o) := by
        rw [updFor]
        by_cases h : name = n
        · rw [if_pos h, if_pos h.symm]
        · rw [if_neg h, if_neg (fun hc => h hc.symm)]
      rw [this]

theorem collect_detail_all_plain (ts : List EventTrigger)
    (h : ∀ t ∈ ts, ∃ n, t = .plain n) :
    ∀ (s : List GoStr) (d : List (GoStr × GoVal)),
      (collectTriggers ts s d).2 = d := by
  induction ts with
  | nil => intro s d; rfl
  | cons t rest ih =>
    intro s d
    obtain ⟨n, rfl⟩ := h t (by simp)
    rw [collectTriggers]
    exact ih (fun t' ht' => h t' (by simp [ht'])) _ d

theorem mapSet_ne_nil {α : Type} (m : List (GoStr × α)) (k : GoStr)
    (v : α) : mapSet m k v ≠ [] := by
  cases m with
  | nil => simp [mapSet]
  | cons p rest =>
    obtain ⟨k0, v0⟩ := p
    rw [mapSet]
    by_cases h : k0 = k
    · rw [if_pos h]; simp
    · rw [if_neg h]; simp

theorem collect_detail_ne_nil (ts : List EventTrigger) :
    ∀ (s : List GoStr) (d : List (GoStr × GoVal)), d ≠ [] →
      (collectTriggers ts s d).2 ≠ [] := by
  induction ts with
  | nil => intro s d hd; exact hd
  | cons t rest ih =>
    intro s d hd
    cases t with
    | plain n => exact ih _ d hd
    | detail n v => exact ih _ _ (mapSet_ne_nil d n _)
    | object n o => exact ih _ _ (mapSet_ne_nil d n _)

theorem collect_detail_nonplain (ts : List EventTrigger)
    (h : ∃ t ∈ ts, ∀ n, t ≠ .plain n) :
    ∀ (s : List GoStr) (d : List (GoStr × GoVal)),
      (collectTriggers ts s d).2 ≠ [] := by
  induction ts with
  | nil =>
    obtain ⟨t, ht, -⟩ := h
    cases ht
  | cons t rest ih =>
    intro s d
    obtain ⟨t0, ht0, hnp⟩ := h
    rcases List.mem_cons.mp ht0 with rfl | hmem
    · cases t0 with
      | plain n => exact absurd rfl (hnp n)
      | detail n v =>
        rw [collectTriggers]
        exact collect_detail_ne_nil rest _ _ (mapSet_ne_nil d n _)
      | object n o =>
        rw [collectTriggers]
        exact collect_detail_ne_nil rest _ _ (mapSet_ne_nil d n _)
    · cases t with
      | plain n => exact ih ⟨t0, hmem, hnp⟩ _ d
      | detail n v => exact ih ⟨t0, hmem, hnp⟩ _ _
      | object n o => exact ih ⟨t0, hmem, hnp⟩ _ _

theorem mapGet_addPlains (simple : List GoStr) :
    ∀ (detail : List (GoStr × GoVal)) (name : GoStr),
      mapGet (addPlains simple detail) name =
        if name ∈ simple then some (.str []) else mapGet detail name := by
  induction simple with
  | nil => intro detail name; simp [addPlains]
  | cons n rest ih =>
    intro detail name
    rw [addPlains, List.foldl_cons]
    rw [show List.foldl (fun d n => mapSet d n (GoVal.str []))
      (mapSet detail n (GoVal.str [])) rest =
      addPlains rest (mapSet detail n (GoVal.str [])) from rfl]
    rw [ih, mapGet_mapSet]
    by_cases hmem : name ∈ rest
    · rw [if_pos hmem, if_pos (by simp [hmem])]
    · rw [if_neg hmem]
      by_cases hn : name = n
      · rw [if_pos hn, if_pos (by simp [hn])]
      · rw [if_neg hn, if_neg (by simp [hn, hmem])]

/-! ## Transferring counts and values from the abstract chain to the
serialized word sequence -/

theorem split_count_value (B : SwapStrategy) (hB : BaseWf B) (ms : List Mod)
    (hok : ∀ m ∈ ms, Mod.ok m = true) (K : GoStr) (hK : K ∈ modKeys) :
    (splitOnSpace (swapString (applyChain B ms))).countP
        (fun t => matchesKey K t) =
      (absChain ms).countP (fun t => matchesKey K t) ∧
    ∀ t ∈ splitOnSpace (swapString (applyChain B ms)),
      matchesKey K t = true → t ∈ absChain ms := by
  obtain ⟨heq, hInv⟩ := applyChain_eq_render B hB ms hok
  rw [show swapString (applyChain B ms) = applyChain B ms from rfl, heq,
    splitOnSpace_render B _ hB hInv.1]
  by_cases h0 : (B :: absChain ms).filter (fun t => !t.isEmpty) = []
  · rw [if_pos h0]
    have habs : absChain ms = [] := by
      have hall := List.filter_eq_nil_iff.mp h0
      rcases habs : absChain ms with _ | ⟨t, ts⟩
      · rfl
      · exfalso
        have hmem : t ∈ B :: absChain ms := by rw [habs]; simp
        have := hall t hmem
        exact tokWf_ne_nil t (hInv.1 t (by rw [habs]; simp))
          (by simpa [List.isEmpty_iff] using this)
    rw [habs]
    constructor
    · simp [List.countP_cons, matchesKey_nil]
    · intro t ht hmt
      rcases List.mem_singleton.mp ht with rfl
      rw [matchesKey_nil] at hmt
      exact absurd hmt (by simp)
  · rw [if_neg h0, tokens_filter B _ hInv.1]
    have hBm : matchesKey K B = false := (baseWf_parts B hB).2.1 K hK
    cases hBe : B.isEmpty with
    | true =>
      rw [if_pos rfl]
      exact ⟨rfl, fun t ht _ => ht⟩
    | false =>
      rw [if_neg (by simp)]
      constructor
      · rw [List.countP_cons, hBm]
        simp
      · intro t ht hmt
        rcases List.mem_cons.mp ht with rfl | h
        · rw [hBm] at hmt
          exact absurd hmt (by simp)
        · exact h

/-! ## The claims -/

/-- C1 (amended): for every base strategy constant and every finite
sequence of modifier operations whose CSS selector arguments contain no
space character, the serialized `SwapStrategy` contains at most one
token starting with `K:` for each distinct modifier key `K`. -/
theorem C1_per_key_token_uniqueness (B : SwapStrategy) (hB : B ∈ baseConsts)
    (ms : List Mod) (hok : ∀ m ∈ ms, Mod.ok m = true) (K : GoStr)
    (hK : K ∈ modKeys) :
    (splitOnSpace (swapString (applyChain B ms))).countP
      (fun t => matchesKey K t) ≤ 1 :=
  chain_key_count B (baseConsts_wf B hB) ms hok K hK

/-- C1 witness: a concrete chain with a `show` and a `scroll` modifier
has at most one `show:` token. -/
theorem C1_witness :
    (splitOnSpace (swapString (applyChain SwapInnerHTML
      [Mod.showOn "#d".data direction.top,
       Mod.scroll direction.bottom]))).countP
      (fun t => matchesKey "show".data t) ≤ 1 :=
  C1_per_key_token_uniqueness SwapInnerHTML (by decide)
    [Mod.showOn "#d".data direction.top, Mod.scroll direction.bottom]
    (by decide) "show".data (by decide)

/-- C1 counterexample: with the selector `"x show:y"` (which contains a
space), a single `ShowOn` call yields two tokens starting with `show:`,
so the claim is false for arbitrary selector strings. -/
theorem C1_counterexample :
    ¬((splitOnSpace (swapString (ShowOn SwapInnerHTML "x show:y".data
      direction.top))).countP (fun t => matchesKey "show".data t) ≤ 1) := by
  decide

/-- C2: chaining Transition(true), IgnoreTitle(true), FocusScroll(true),
After(5s), SettleAfter(5s), Scroll(Top), ScrollOn("#another-div", Top),
ScrollWindow(Top), Show(Top), ShowOn("#another-div", Top),
ShowWindow(Top), ShowNone() in that order on the `innerHTML` base
serializes to exactly the expected string. -/
theorem C2_full_chain :
    swapString (ShowNone (ShowWindow (ShowOn (ShowDir (ScrollWindow
      (ScrollOn (Scroll (SettleAfter (After (FocusScroll (IgnoreTitle
        (Transition SwapInnerHTML true) true) true) 5000000000)
        5000000000) direction.top) "#another-div".data direction.top)
      direction.top) direction.top) "#another-div".data direction.top)
      direction.top)) =
    "innerHTML transition:true ignoreTitle:true focusScroll:true swap:5s settle:5s scroll:window:top show:none".data := by
  decide

/-- C3 (amended): on any strategy built from a base constant by
modifier calls with space-free selectors, applying the same modifier
operation twice (with space-free selector arguments) equals applying
only the second call, and the result has no duplicated key. -/
theorem C3_last_write_wins (B : SwapStrategy) (hB : B ∈ baseConsts)
    (ms : List Mod) (hok : ∀ m ∈ ms, Mod.ok m = true) (m1 m2 : Mod)
    (h1 : Mod.ok m1 = true) (h2 : Mod.ok m2 = true)
    (hkey : m1.key = m2.key) :
    applyMod (applyMod (applyChain B ms) m1) m2 =
      applyMod (applyChain B ms) m2 ∧
    ∀ K ∈ modKeys, (splitOnSpace (swapString (applyMod
      (applyChain B ms) m2))).countP (fun t => matchesKey K t) ≤ 1 := by
  have hBwf := baseConsts_wf B hB
  have hok2 : ∀ m' ∈ ms ++ [m2], Mod.ok m' = true := by
    intro m' hm'
    rcases List.mem_append.mp hm' with h | h
    · exact hok m' h
    · rcases List.mem_singleton.mp h with rfl
      exact h2
  have hok12 : ∀ m' ∈ (ms ++ [m1]) ++ [m2], Mod.ok m' = true := by
    intro m' hm'
    rcases List.mem_append.mp hm' with h | h
    · rcases List.mem_append.mp h with h' | h'
      · exact hok m' h'
      · rcases List.mem_singleton.mp h' with rfl
        exact h1
    · rcases List.mem_singleton.mp h with rfl
      exact h2
  constructor
  · rw [show applyMod (applyMod (applyChain B ms) m1) m2 =
      applyChain B ((ms ++ [m1]) ++ [m2]) from by
        rw [applyChain_append_one, applyChain_append_one]]
    rw [show applyMod (applyChain B ms) m2 = applyChain B (ms ++ [m2]) from
      by rw [applyChain_append_one]]
    obtain ⟨heq1, -⟩ := applyChain_eq_render B hBwf ((ms ++ [m1]) ++ [m2])
      hok12
    obtain ⟨heq2, -⟩ := applyChain_eq_render B hBwf (ms ++ [m2]) hok2
    rw [heq1, heq2, absChain_append_one, absChain_append_one,
      absChain_append_one, setMod_setMod_same _ _ _ hkey]
  · intro K hK
    rw [show applyMod (applyChain B ms) m2 = applyChain B (ms ++ [m2]) from
      by rw [applyChain_append_one]]
    exact chain_key_count B hBwf (ms ++ [m2]) hok2 K hK

/-- C3 witness: `Scroll(Top)` then `ScrollOn("#d", Bottom)` on
`innerHTML` equals the single `ScrollOn("#d", Bottom)` call. -/
theorem C3_witness :
    applyMod (applyMod (applyChain SwapInnerHTML [])
        (Mod.scroll direction.top))
      (Mod.scrollOn "#d".data direction.bottom) =
    applyMod (applyChain SwapInnerHTML [])
      (Mod.scrollOn "#d".data direction.bottom) ∧
    (splitOnSpace (swapString (applyMod (applyChain SwapInnerHTML [])
      (Mod.scrollOn "#d".data direction.bottom)))).countP
      (fun t => matchesKey "scroll".data t) ≤ 1 :=
  ⟨(C3_last_write_wins SwapInnerHTML (by decide) [] (by decide)
    (Mod.scroll direction.top) (Mod.scrollOn "#d".data direction.bottom)
    (by decide) (by decide) (by decide)).1,
   (C3_last_write_wins SwapInnerHTML (by decide) [] (by decide)
    (Mod.scroll direction.top) (Mod.scrollOn "#d".data direction.bottom)
    (by decide) (by decide) (by decide)).2 "scroll".data (by decide)⟩

/-- C3 counterexample: with the space-containing selector `"x y"`, the
first `ScrollOn` leaves a stray word behind, so the double application
differs from the single one. -/
theorem C3_counterexample :
    ScrollOn (ScrollOn SwapInnerHTML "x y".data direction.top) "#d".data
      direction.top ≠ ScrollOn SwapInnerHTML "#d".data direction.top := by
  decide

/-- C4 (amended): re-applying an operation of key `K1` after one of a
distinct key `K2` removes `K1`'s old token (so the `K2` token's index
shifts down by one) and appends the fresh `K1` token at the end; the
`K2` token's value is unchanged and it still occurs exactly once. -/
theorem C4_cross_key_independence (B : SwapStrategy) (hB : B ∈ baseConsts)
    (ms : List Mod) (hok : ∀ m ∈ ms, Mod.ok m = true) (m1 m2 m1' : Mod)
    (h1 : Mod.ok m1 = true) (h2 : Mod.ok m2 = true)
    (h1' : Mod.ok m1' = true) (hk12 : m1.key ≠ m2.key)
    (hk11 : m1'.key = m1.key) :
    splitOnSpace (swapString (applyMod (applyChain B (ms ++ [m1, m2]))
        m1')) =
      (splitOnSpace (swapString (applyChain B (ms ++ [m1, m2])))).filter
        (fun t => !matchesKey m1.key t) ++ [m1'.token] ∧
    (splitOnSpace (swapString (applyMod (applyChain B (ms ++ [m1, m2]))
      m1'))).countP (fun t => matchesKey m2.key t) = 1 ∧
    ∀ t ∈ splitOnSpace (swapString (applyMod (applyChain B
      (ms ++ [m1, m2])) m1')), matchesKey m2.key t = true →
        t = m2.token := by
  have hBwf := baseConsts_wf B hB
  have hok12 : ∀ m' ∈ ms ++ [m1, m2], Mod.ok m' = true := by
    intro m' hm'
    rcases List.mem_append.mp hm' with h | h
    · exact hok m' h
    · rcases List.mem_cons.mp h with rfl | h'
      · exact h1
      · rcases List.mem_singleton.mp h' with rfl
        exact h2
  have hokF : ∀ m' ∈ (ms ++ [m1, m2]) ++ [m1'], Mod.ok m' = true := by
    intro m' hm'
    rcases List.mem_append.mp hm' with h | h
    · exact hok12 m' h
    · rcases List.mem_singleton.mp h with rfl
      exact h1'
  have habs2 : absChain (ms ++ [m1, m2]) =
      setMod (setMod (absChain ms) m1) m2 := by
    rw [show ms ++ [m1, m2] = (ms ++ [m1]) ++ [m2] from by simp,
      absChain_append_one, absChain_append_one]
  have hk21' : m2.key ≠ m1'.key := by
    rw [hk11]
    exact Ne.symm hk12
  obtain ⟨-, hInv2⟩ := applyChain_eq_render B hBwf (ms ++ [m1, m2]) hok12
  have habsF : absChain ((ms ++ [m1, m2]) ++ [m1']) =
      setMod (absChain (ms ++ [m1, m2])) m1' := absChain_append_one _ _
  have hchainF : applyMod (applyChain B (ms ++ [m1, m2])) m1' =
      applyChain B ((ms ++ [m1, m2]) ++ [m1']) :=
    (applyChain_append_one B _ m1').symm
  refine ⟨?_, ?_, ?_⟩
  · have h := split_applyMod_chain B hBwf (ms ++ [m1, m2]) hok12 m1' h1'
      (Or.inr (by simp))
    rw [hk11] at h
    exact h
  · rw [hchainF]
    have hsc := split_count_value B hBwf ((ms ++ [m1, m2]) ++ [m1']) hokF
      m2.key (mod_key_mem m2)
    rw [hsc.1, habsF, countP_setMod_other _ _ _ (mod_key_mem m2) hk21'
      hInv2.1, habs2, setMod_self_count]
  · intro t ht hmt
    rw [hchainF] at ht
    have hsc := split_count_value B hBwf ((ms ++ [m1, m2]) ++ [m1']) hokF
      m2.key (mod_key_mem m2)
    have htabs := hsc.2 t ht hmt
    rw [habsF] at htabs
    rcases List.mem_append.mp htabs with h | h
    · have h' := (List.mem_filter.mp h).1
      rw [habs2] at h'
      exact setMod_match_eq_token _ m2 t h' hmt
    · rcases List.mem_singleton.mp h with rfl
      rw [matchesKey_token_ne m2.key (mod_key_mem m2) m1' hk21'] at hmt
      exact absurd hmt (by simp)

/-- C4 witness: concrete instance of the amended cross-key law. -/
theorem C4_witness :
    (splitOnSpace (swapString (applyMod (applyChain SwapInnerHTML
      ([] ++ [Mod.transition true, Mod.showDir direction.top]))
      (Mod.transition false)))).countP
      (fun t => matchesKey (Mod.showDir direction.top).key t) = 1 :=
  (C4_cross_key_independence SwapInnerHTML (by decide) [] (by decide)
    (Mod.transition true) (Mod.showDir direction.top)
    (Mod.transition false) (by decide) (by decide) (by decide)
    (by decide) (by decide)).2.1

/-- C4 counterexample: before the re-application of `Transition` the
`show:top` token sits at index 2; afterwards it sits at index 1, so its
position is not unchanged. -/
theorem C4_counterexample :
    (splitOnSpace (ShowDir (Transition SwapInnerHTML true)
      direction.top))[2]? = some "show:top".data ∧
    (splitOnSpace (Transition (ShowDir (Transition SwapInnerHTML true)
      direction.top) false))[2]? ≠ some "show:top".data ∧
    (splitOnSpace (Transition (ShowDir (Transition SwapInnerHTML true)
      direction.top) false))[1]? = some "show:top".data := by
  decide

/-- C5: the three scroll variants share the `scroll` key and the show
variants share the `show` key: `Scroll` after `ShowOn` leaves exactly
one unchanged `show` token, `ScrollOn` after `Scroll` leaves exactly
one `scroll` token carrying the new value, and concretely
`beforeend.Scroll(Top).ScrollOn("#div", Bottom)` serializes to
`"beforeend scroll:#div:bottom"`. -/
theorem C5_scroll_show_key_families (B : SwapStrategy)
    (hB : B ∈ baseConsts) (ms : List Mod)
    (hok : ∀ m ∈ ms, Mod.ok m = true) (sel : GoStr)
    (hsel : sel.all (fun c => !(c == ' ')) = true) (d d' : direction) :
    ScrollOn (Scroll SwapBeforeEnd direction.top) "#div".data
        direction.bottom = "beforeend scroll:#div:bottom".data ∧
    ((splitOnSpace (swapString (Scroll (ShowOn (applyChain B ms) sel d)
        d'))).countP (fun t => matchesKey "show".data t) = 1 ∧
      ∀ t ∈ splitOnSpace (swapString (Scroll (ShowOn (applyChain B ms)
        sel d) d')), matchesKey "show".data t = true →
          t = "show".data ++ ':' :: (sel ++ ':' :: dirString d)) ∧
    ((splitOnSpace (swapString (ScrollOn (Scroll (applyChain B ms) d)
        sel d'))).countP (fun t => matchesKey "scroll".data t) = 1 ∧
      ∀ t ∈ splitOnSpace (swapString (ScrollOn (Scroll (applyChain B ms)
        d) sel d')), matchesKey "scroll".data t = true →
          t = "scroll".data ++ ':' :: (sel ++ ':' :: dirString d')) := by
  have hBwf := baseConsts_wf B hB
  have hokA : ∀ m' ∈ (ms ++ [Mod.showOn sel d]) ++ [Mod.scroll d'],
      Mod.ok m' = true := by
    intro m' hm'
    rcases List.mem_append.mp hm' with h | h
    · rcases List.mem_append.mp h with h' | h'
      · exact hok m' h'
      · rcases List.mem_singleton.mp h' with rfl
        exact hsel
    · rcases List.mem_singleton.mp h with rfl
      rfl
  have hokB : ∀ m' ∈ (ms ++ [Mod.scroll d]) ++ [Mod.scrollOn sel d'],
      Mod.ok m' = true := by
    intro m' hm'
    rcases List.mem_append.mp hm' with h | h
    · rcases List.mem_append.mp h with h' | h'
      · exact hok m' h'
      · rcases List.mem_singleton.mp h' with rfl
        rfl
    · rcases List.mem_singleton.mp h with rfl
      exact hsel
  have hchA : Scroll (ShowOn (applyChain B ms) sel d) d' =
      applyChain B ((ms ++ [Mod.showOn sel d]) ++ [Mod.scroll d']) := by
    rw [applyChain_append_one, applyChain_append_one]
    rfl
  have hchB : ScrollOn (Scroll (applyChain B ms) d) sel d' =
      applyChain B ((ms ++ [Mod.scroll d]) ++ [Mod.scrollOn sel d']) := by
    rw [applyChain_append_one, applyChain_append_one]
    rfl
  have habsA : absChain ((ms ++ [Mod.showOn sel d]) ++ [Mod.scroll d']) =
      setMod (setMod (absChain ms) (Mod.showOn sel d)) (Mod.scroll d') := by
    rw [absChain_append_one, absChain_append_one]
  have habsB : absChain ((ms ++ [Mod.scroll d]) ++ [Mod.scrollOn sel d']) =
      setMod (setMod (absChain ms) (Mod.scroll d)) (Mod.scrollOn sel d') := by
    rw [absChain_append_one, absChain_append_one]
  have hshow_mem : ("show".data : GoStr) ∈ modKeys := by decide
  have hscroll_mem : ("scroll".data : GoStr) ∈ modKeys := by decide
  have hne_sh_sc : ("show".data : GoStr) ≠ "scroll".data := by decide
  have hokA' : ∀ m' ∈ ms ++ [Mod.showOn sel d], Mod.ok m' = true := by
    intro m' hm'
    rcases List.mem_append.mp hm' with h | h
    · exact hok m' h
    · rcases List.mem_singleton.mp h with rfl
      exact hsel
  obtain ⟨-, hInvA⟩ := applyChain_eq_render B hBwf (ms ++ [Mod.showOn sel d])
    hokA'
  refine ⟨by decide, ⟨?_, ?_⟩, ?_⟩
  · rw [hchA]
    have hsc := split_count_value B hBwf _ hokA "show".data hshow_mem
    rw [hsc.1, habsA]
    have hwfA : ∀ t ∈ setMod (absChain ms) (Mod.showOn sel d), TokWf t := by
      rw [show setMod (absChain ms) (Mod.showOn sel d) =
        absChain (ms ++ [Mod.showOn sel d]) from
          (absChain_append_one _ _).symm]
      exact hInvA.1
    rw [countP_setMod_other _ (Mod.scroll d') "show".data hshow_mem
      (by exact hne_sh_sc) hwfA]
    rw [show ("show".data : GoStr) = (Mod.showOn sel d).key from rfl]
    exact setMod_self_count _ _
  · intro t ht hmt
    rw [hchA] at ht
    have hsc := split_count_value B hBwf _ hokA "show".data hshow_mem
    have htabs := hsc.2 t ht hmt
    rw [habsA] at htabs
    rcases List.mem_append.mp htabs with h | h
    · have h' := (List.mem_filter.mp h).1
      exact setMod_match_eq_token _ (Mod.showOn sel d) t h' hmt
    · rcases List.mem_singleton.mp h with rfl
      rw [show ("show".data : GoStr) = "show".data from rfl,
        matchesKey_token_ne "show".data hshow_mem (Mod.scroll d')
          (by exact hne_sh_sc)] at hmt
      exact absurd hmt (by simp)
  · have hokB' : ∀ m' ∈ ms ++ [Mod.scroll d], Mod.ok m' = true := by
      intro m' hm'
      rcases List.mem_append.mp hm' with h | h
      · exact hok m' h
      · rcases List.mem_singleton.mp h with rfl
        rfl
    constructor
    · rw [hchB]
      have hsc := split_count_value B hBwf _ hokB "scroll".data hscroll_mem
      rw [hsc.1, habsB]
      rw [show ("scroll".data : GoStr) = (Mod.scrollOn sel d').key from rfl]
      exact setMod_self_count _ _
    · intro t ht hmt
      rw [hchB] at ht
      have hsc := split_count_value B hBwf _ hokB "scroll".data hscroll_mem
      have htabs := hsc.2 t ht hmt
      rw [habsB] at htabs
      exact setMod_match_eq_token _ (Mod.scrollOn sel d') t htabs hmt

/-- C5 witness: concrete instance on the `beforeend` base. -/
theorem C5_witness :
    ScrollOn (Scroll SwapBeforeEnd direction.top) "#div".data
      direction.bottom = "beforeend scroll:#div:bottom".data :=
  (C5_scroll_show_key_families SwapBeforeEnd (by decide) [] (by decide)
    "#div".data (by decide) direction.top direction.bottom).1

/-- C6: the empty (default) base emits no leading space and no base
token (`SwapDefault.ShowNone()` gives exactly `"show:none"`); for every
nonempty base constant the serialized string's first token is the base,
with the modifier tokens following in last-set order (each new write of
a key removes the key's old token and appends the new one at the
end). -/
theorem C6_base_first_and_empty_base (ms0 : List Mod) (m0 : Mod) :
    swapString (ShowNone SwapDefault) = "show:none".data ∧
    (∀ B, B ∈ baseConsts → B ≠ [] →
      ∀ ms : List Mod, (∀ m ∈ ms, Mod.ok m = true) →
        splitOnSpace (swapString (applyChain B ms)) = B :: absChain ms) ∧
    absChain (ms0 ++ [m0]) =
      (absChain ms0).filter (fun t => !matchesKey m0.key t) ++
        [m0.token] := by
  refine ⟨by decide, ?_, ?_⟩
  · intro B hB hBne ms hok
    have hBwf := baseConsts_wf B hB
    obtain ⟨heq, hInv⟩ := applyChain_eq_render B hBwf ms hok
    rw [show swapString (applyChain B ms) = applyChain B ms from rfl, heq,
      splitOnSpace_render B _ hBwf hInv.1]
    have hfil : (B :: absChain ms).filter (fun t => !t.isEmpty) =
        B :: absChain ms := by
      rw [tokens_filter B _ hInv.1,
        if_neg (by simpa [List.isEmpty_iff] using hBne)]
    rw [if_neg (by rw [hfil]; simp), hfil]
  · rw [absChain_append_one, setMod]

/-- C6 witness: a concrete chain on `innerHTML`. -/
theorem C6_witness :
    splitOnSpace (swapString (applyChain SwapInnerHTML
      [Mod.transition true])) =
      SwapInnerHTML :: absChain [Mod.transition true] :=
  (C6_base_first_and_empty_base [] Mod.showNone).2.1 SwapInnerHTML
    (by decide) (by decide) [Mod.transition true] (by decide)

/-- C7 (amended): `After(5s)` and `SettleAfter(5s)` append `swap:5s`
and `settle:5s` as the final token for every receiver; 500ms renders as
`500ms`; and whole-second durations below one minute render as `Ns`
(sixty seconds and beyond switch to minute notation). -/
theorem C7_duration_rendering :
    (∀ s : SwapStrategy,
      (splitOnSpace (swapString (After s 5000000000))).getLast? =
        some "swap:5s".data ∧
      (splitOnSpace (swapString (SettleAfter s 5000000000))).getLast? =
        some "settle:5s".data) ∧
    durationString 500000000 = "500ms".data ∧
    (∀ n : Nat, n < 60 → 1 ≤ n →
      durationString ((n : Int) * 1000000000) =
        (Nat.repr n).data ++ ['s']) := by
  refine ⟨?_, by decide, by decide⟩
  intro s
  constructor
  · have h := timeModifier_getLast s "swap".data 5000000000 (by decide)
    rw [show keyPfx "swap".data ++ durationString 5000000000 =
      "swap:5s".data from by decide] at h
    exact h
  · have h := timeModifier_getLast s "settle".data 5000000000 (by decide)
    rw [show keyPfx "settle".data ++ durationString 5000000000 =
      "settle:5s".data from by decide] at h
    exact h

/-- C7 witness: five whole seconds render as `"5s"`. -/
theorem C7_witness :
    durationString (((5 : Nat) : Int) * 1000000000) =
      (Nat.repr 5).data ++ ['s'] :=
  C7_duration_rendering.2.2 5 (by decide) (by decide)

/-- C7 counterexample: sixty whole seconds render as `"1m0s"`, not
`"60s"`, so "whole seconds render as Ns" fails at 60s. -/
theorem C7_counterexample :
    durationString (60 * 1000000000) = "1m0s".data ∧
    ("1m0s".data : GoStr) ≠ "60s".data ∧
    After SwapInnerHTML (60 * 1000000000) =
      "innerHTML swap:1m0s".data := by
  decide

/-- C8: the expression-building and serialization layer is total: the
`direction` type has exactly the two constants, every modifier
operation produces a result for every input (there is no error
result in any operation's type), and serialization is defined on every
strategy. -/
theorem C8_totality :
    (∀ d : direction, d = direction.top ∨ d = direction.bottom) ∧
    (∀ (s : SwapStrategy) (m : Mod), ∃ r : SwapStrategy,
      applyMod s m = r) ∧
    (∀ s : SwapStrategy, ∃ out : GoStr, swapString s = out) := by
  refine ⟨?_, fun s m => ⟨_, rfl⟩, fun s => ⟨_, rfl⟩⟩
  intro d
  cases d
  · exact Or.inl rfl
  · exact Or.inr rfl

theorem triggersToString_eq (ts : List EventTrigger) :
    triggersToString ts =
      if (collectTriggers ts [] []).2.isEmpty then
        .ok (List.intercalate ", ".data (collectTriggers ts [] []).1)
      else marshalObj (addPlains (collectTriggers ts [] []).1
        (collectTriggers ts [] []).2) := rfl

theorem plainNames_map_plain (ns : List GoStr) :
    plainNames (ns.map EventTrigger.plain) = ns := by
  induction ns with
  | nil => rfl
  | cons n rest ih => rw [List.map_cons, plainNames, ih]

/-- C9: error atomicity of `Response.Write`: with recorded
`LocationWithContext` errors, `Write` returns their `errors.Join` and
leaves the writer untouched (no header set, no status written);
without recorded errors and with `Headers()` succeeding, `Write` sets
every accumulated header on the writer and calls `WriteHeader` exactly
when a status code was explicitly set (non-zero). -/
theorem C9_write_error_atomicity (r : Response) (w : ResponseWriter) :
    (r.locationWithContextErr ≠ [] →
      Write r w = (some (.joined r.locationWithContextErr), w)) ∧
    (∀ hs, r.locationWithContextErr = [] → Headers r = .ok hs →
      Write r w = (none,
        { headerMap := setAll w.headerMap hs,
          wroteStatus := if r.statusCode ≠ 0 then
            w.wroteStatus ++ [r.statusCode] else w.wroteStatus }) ∧
      ((hs.map Prod.fst).Nodup →
        ∀ kv ∈ hs, mapGet (setAll w.headerMap hs) kv.1 = some kv.2)) := by
  constructor
  · intro herr
    unfold Write
    rw [if_neg (by simpa [List.isEmpty_iff] using herr)]
  · intro hs herr hhead
    constructor
    · unfold Write
      rw [if_pos (by simp [herr]), hhead]
    · intro hnd kv hkv
      exact setAll_nodup_get hs w.headerMap hnd kv hkv

/-- C9 witness: a concrete response with one header and status 204 is
written fully, with no error. -/
theorem C9_witness :
    Write
      { headers := [("HX-Redirect".data, "/x".data)], statusCode := 204,
        triggers := none, triggersAfterSettle := none,
        triggersAfterSwap := none, locationWithContextErr := [] }
      { headerMap := [], wroteStatus := [] } =
      (none,
        { headerMap := [("HX-Redirect".data, "/x".data)],
          wroteStatus := [(204 : Int)] }) ∧
    Write
      { headers := [], statusCode := 200, triggers := none,
        triggersAfterSettle := none, triggersAfterSwap := none,
        locationWithContextErr := [GoErr.jsonUnsupported "chan".data] }
      { headerMap := [], wroteStatus := [] } =
      (some (.joined [GoErr.jsonUnsupported "chan".data]),
        { headerMap := [], wroteStatus := [] }) :=
  ⟨((C9_write_error_atomicity
    { headers := [("HX-Redirect".data, "/x".data)], statusCode := 204,
      triggers := none, triggersAfterSettle := none,
      triggersAfterSwap := none, locationWithContextErr := [] }
    { headerMap := [], wroteStatus := [] }).2
    [("HX-Redirect".data, "/x".data)] rfl rfl).1,
   (C9_write_error_atomicity
    { headers := [], statusCode := 200, triggers := none,
      triggersAfterSettle := none, triggersAfterSwap := none,
      locationWithContextErr := [GoErr.jsonUnsupported "chan".data] }
    { headerMap := [], wroteStatus := [] }).1 (by simp)⟩

/-- C10 (amended): all-plain trigger lists make `triggersToString` the
`", "`-join of the names in order; a list with a detail/object trigger
instead marshals a JSON object in which any name used by a plain
trigger maps to `""` (overriding a detail/object value of the same
name) and every other detail/object name maps to its last value; via
`Headers()` that string becomes the `HX-Trigger` value. -/
theorem C10_trigger_dichotomy (ts : List EventTrigger) :
    (∀ ns : List GoStr, ts = ns.map EventTrigger.plain →
      triggersToString ts = .ok (List.intercalate ", ".data ns)) ∧
    ((∃ t ∈ ts, ∀ n, t ≠ .plain n) →
      triggersToString ts =
        marshalObj (addPlains (collectTriggers ts [] []).1
          (collectTriggers ts [] []).2) ∧
      ∀ name, mapGet (addPlains (collectTriggers ts [] []).1
        (collectTriggers ts [] []).2) name = claimTriggerValue ts name) ∧
    (∀ (r : Response) (s0 : GoStr), r.triggers = some ts →
      r.triggersAfterSettle = none → r.triggersAfterSwap = none →
      triggersToString ts = .ok s0 →
      Headers r = .ok (mapSet r.headers HeaderTrigger s0) ∧
      mapGet (mapSet r.headers HeaderTrigger s0) HeaderTrigger =
        some s0) := by
  refine ⟨?_, ?_, ?_⟩
  · intro ns hts
    subst hts
    have hall : ∀ t ∈ ns.map EventTrigger.plain, ∃ n, t = .plain n := by
      intro t ht
      obtain ⟨n, -, rfl⟩ := List.mem_map.mp ht
      exact ⟨n, rfl⟩
    have hd : (collectTriggers (ns.map EventTrigger.plain) [] []).2 = [] :=
      collect_detail_all_plain _ hall [] []
    have hsim : (collectTriggers (ns.map EventTrigger.plain) [] []).1 =
        ns := by
      rw [collect_simple, plainNames_map_plain]
      rfl
    rw [triggersToString_eq, hd, hsim]
    rfl
  · intro hnp
    have hd : (collectTriggers ts [] []).2 ≠ [] :=
      collect_detail_nonplain ts hnp [] []
    constructor
    · rw [triggersToString_eq, if_neg (by simpa [List.isEmpty_iff] using hd)]
    · intro name
      rw [mapGet_addPlains]
      rw [show (collectTriggers ts [] []).1 = plainNames ts from by
        rw [collect_simple]; rfl]
      rw [collect_detail_get]
      rfl
  · intro r s0 h1 h2 h3 h4
    constructor
    · unfold Headers
      rw [h1, h2, h3]
      rw [show addTriggerHeader r.headers HeaderTrigger
        "marshalling triggers failed".data (some ts) =
          match triggersToString ts with
          | .error e => .error (.wrapped "marshalling triggers failed".data e)
          | .ok s => .ok (mapSet r.headers HeaderTrigger s) from rfl, h4]
      rfl
    · rw [mapGet_mapSet, if_pos rfl]

/-- C10 witness: a mixed list (one plain, one detail trigger) goes
through the JSON-object branch. -/
theorem C10_witness :
    triggersToString [EventTrigger.plain "a".data,
        EventTrigger.detail "b".data "y".data] =
      marshalObj (addPlains
        (collectTriggers [EventTrigger.plain "a".data,
          EventTrigger.detail "b".data "y".data] [] []).1
        (collectTriggers [EventTrigger.plain "a".data,
          EventTrigger.detail "b".data "y".data] [] []).2) :=
  ((C10_trigger_dichotomy [EventTrigger.plain "a".data,
    EventTrigger.detail "b".data "y".data]).2.1
    ⟨EventTrigger.detail "b".data "y".data, by simp, fun n => by simp⟩).1

/-- C10 counterexample: with `TriggerDetail("a","x")` followed by
`Trigger("a")`, the emitted JSON object maps `"a"` to `""`, not to the
detail value `"x"`, so "each detail event name maps to its value" fails
under name collision. -/
theorem C10_counterexample :
    triggersToString [EventTrigger.detail "a".data "x".data,
        EventTrigger.plain "a".data] =
      .ok ('\x7b' :: "\"a\":\"\"".data ++ ['\x7d']) ∧
    mapGet (addPlains
      (collectTriggers [EventTrigger.detail "a".data "x".data,
        EventTrigger.plain "a".data] [] []).1
      (collectTriggers [EventTrigger.detail "a".data "x".data,
        EventTrigger.plain "a".data] [] []).2) "a".data =
      some (.str []) ∧
    GoVal.str [] ≠ GoVal.str "x".data := by
  refine ⟨rfl, rfl, ?_⟩
  intro h
  injection h with h2
  exact absurd h2 (by decide)

end HtmxGo
